import Mathlib

/-!
Verification of the RusWaCipher WebAssembly obfuscation engine and its
encrypted-envelope codec.  The Rust sources are shallowly embedded as Lean
functions over `List Nat` byte buffers (each byte of the real program is a
natural number below 256).  External library primitives (the AEAD ciphers,
serde_json, SHA-256, and the random generators) are taken as parameters of
the embedded functions, together with the contracts the engine relies on.
Recursive functions are written with an explicit structural fuel argument
(always instantiated with a provably sufficient bound) so that every
definition evaluates by kernel reduction.
-/

namespace RusWaCipher

/-! ## Byte-level helpers -/

/-- Little-endian four-byte encoding of a 32-bit value, `u32::to_le_bytes`. -/
def le32 (n : Nat) : List Nat :=
  [n % 256, n / 256 % 256, n / 65536 % 256, n / 16777216 % 256]

/-- `u32::from_le_bytes` applied to the first four bytes of a buffer. -/
def readLe32 (l : List Nat) : Nat :=
  l.getD 0 0 % 256 + l.getD 1 0 % 256 * 256 + l.getD 2 0 % 256 * 65536 +
    l.getD 3 0 % 256 * 16777216

theorem readLe32_le32 (n : Nat) : readLe32 (le32 n) = n % 4294967296 := by
  simp only [readLe32, le32, List.getD_cons_zero, List.getD_cons_succ]
  omega

/-- Fuelled body of the unsigned LEB128 encoder. -/
def writeUlebF : Nat → Nat → List Nat
  | 0, v => [v]
  | fuel + 1, v =>
    if v < 128 then [v] else (v % 128 + 128) :: writeUlebF fuel (v / 128)

theorem writeUlebF_stable :
    ∀ fuel1 fuel2 v, v ≤ fuel1 → v ≤ fuel2 →
      writeUlebF fuel1 v = writeUlebF fuel2 v := by
  intro fuel1
  induction fuel1 with
  | zero =>
    intro fuel2 v h1 _
    have hv : v = 0 := Nat.le_zero.mp h1
    subst hv
    cases fuel2 with
    | zero => rfl
    | succ f => simp [writeUlebF]
  | succ f1 ih =>
    intro fuel2 v h1 h2
    cases fuel2 with
    | zero =>
      have hv : v = 0 := Nat.le_zero.mp h2
      subst hv
      simp [writeUlebF]
    | succ f2 =>
      simp only [writeUlebF]
      by_cases hv : v < 128
      · simp [hv]
      · simp only [hv, if_false]
        rw [ih f2 (v / 128) (by omega) (by omega)]

/-- Unsigned LEB128 encoder, the mirror of `write_leb128` in
`obfuscation/function_split.rs` and `write_unsigned_leb128` in
`obfuscation/virtualization.rs`. -/
def writeUleb (v : Nat) : List Nat := writeUlebF v v

theorem writeUleb_def (v : Nat) :
    writeUleb v = if v < 128 then [v] else (v % 128 + 128) :: writeUleb (v / 128) := by
  unfold writeUleb
  cases v with
  | zero => simp [writeUlebF]
  | succ n =>
    simp only [writeUlebF]
    by_cases hv : n + 1 < 128
    · simp [hv]
    · simp only [hv, if_false]
      rw [writeUlebF_stable n ((n + 1) / 128) ((n + 1) / 128) (by omega) le_rfl]

/-- Unsigned LEB128 reader over a byte list, returning the decoded value and
the unconsumed remainder, or `none` when the buffer ends inside the encoding. -/
def readUleb : List Nat → Option (Nat × List Nat)
  | [] => none
  | b :: rest =>
    if b % 256 < 128 then some (b % 256, rest)
    else
      match readUleb rest with
      | some (v, rest2) => some (b % 256 - 128 + 128 * v, rest2)
      | none => none

theorem readUleb_length {l : List Nat} {v : Nat} {r : List Nat}
    (h : readUleb l = some (v, r)) : r.length < l.length := by
  induction l generalizing v r with
  | nil => simp [readUleb] at h
  | cons b rest ih =>
    simp only [readUleb] at h
    split at h
    · cases h
      simp
    · cases hr : readUleb rest with
      | none => rw [hr] at h; cases h
      | some p =>
        rw [hr] at h
        cases p with
        | mk v2 r2 =>
          cases h
          exact Nat.lt_trans (ih hr) (by simp)

theorem readUleb_writeUleb (v : Nat) (rest : List Nat) :
    readUleb (writeUleb v ++ rest) = some (v, rest) := by
  induction v using Nat.strong_induction_on with
  | _ v ih =>
    rw [writeUleb_def]
    split
    · rename_i h
      simp [readUleb, Nat.mod_eq_of_lt (by omega : v < 256)]
      omega
    · rename_i h
      have h1 : (v % 128 + 128) % 256 = v % 128 + 128 := by omega
      simp only [List.cons_append, readUleb, h1]
      rw [if_neg (by omega)]
      simp only [List.append_eq]
      rw [ih (v / 128) (by omega)]
      have h2 : v % 128 + 128 - 128 + 128 * (v / 128) = v := by omega
      simp only [h2]

theorem writeUleb_ne_nil (v : Nat) : writeUleb v ≠ [] := by
  rw [writeUleb_def]
  split <;> simp

theorem writeUleb_small (v : Nat) (h : v < 128) : writeUleb v = [v] := by
  rw [writeUleb_def, if_pos h]

/-! ## Wasm module data model (`wasm/structure.rs`) -/

/-- The thirteen Wasm section kinds of `SectionType` in `wasm/structure.rs`. -/
inductive SectionType where
  | custom | type | imports | function | table | memory | global | exports
  | start | element | code | data | dataCount
deriving DecidableEq, Repr

/-- `SectionType::to_id`. -/
def SectionType.to_id : SectionType → Nat
  | .custom => 0
  | .type => 1
  | .imports => 2
  | .function => 3
  | .table => 4
  | .memory => 5
  | .global => 6
  | .exports => 7
  | .start => 8
  | .element => 9
  | .code => 10
  | .data => 11
  | .dataCount => 12

/-- Inverse of `SectionType.to_id`: the id-to-kind mapping used by the parser
(unknown ids are rejected). -/
def sectionTypeOfId (n : Nat) : Option SectionType :=
  match n with
  | 0 => some .custom
  | 1 => some .type
  | 2 => some .imports
  | 3 => some .function
  | 4 => some .table
  | 5 => some .memory
  | 6 => some .global
  | 7 => some .exports
  | 8 => some .start
  | 9 => some .element
  | 10 => some .code
  | 11 => some .data
  | 12 => some .dataCount
  | _ => none

theorem sectionTypeOfId_to_id (st : SectionType) :
    sectionTypeOfId st.to_id = some st := by
  cases st <;> rfl

theorem to_id_lt (st : SectionType) : st.to_id < 256 := by
  cases st <;> simp [SectionType.to_id]

/-- `Section` of `wasm/structure.rs`: kind, optional custom-section name
(kept as raw bytes), raw body bytes. -/
structure Section where
  section_type : SectionType
  name : Option (List Nat)
  data : List Nat
deriving DecidableEq, Repr

/-- `WasmModule` of `wasm/structure.rs`. -/
structure WasmModule where
  version : Nat
  sections : List Section
deriving DecidableEq, Repr

/-! ## Wasm parser and writer

Modelled from the spec: the binary parser `parse_wasm` and the serializer
`serialize_wasm` referenced by `obfuscation/mod.rs` (as
`wasm::parser::parse_wasm` / `wasm::parser::serialize_wasm`) are not present
under `src/`; only their callers are.  Sections 4.1 and 4.2 of the spec give
their contract: the parser checks the `\0asm` magic and version 1, then walks
`id, ULEB128 size, body` records, extracting the leading
`ULEB128 name_len, name` for custom sections; the writer re-emits the header
and the sections in order, each with its id and LEB128-encoded size.
-/

/-- Modelled from the spec: body parsing for one section; custom sections
carry `name_len, name` before the payload, other kinds keep the body
verbatim. -/
def parseSectionBody (st : SectionType) (body : List Nat) : Option Section :=
  if st = .custom then
    match readUleb body with
    | some (nameLen, rest) =>
      if nameLen ≤ rest.length then
        some ⟨.custom, some (rest.take nameLen), rest.drop nameLen⟩
      else none
    | none => none
  else some ⟨st, none, body⟩

/-- Fuelled body of the section walk of the missing `parse_wasm`. -/
def parseSectionsF : Nat → List Nat → Option (List Section)
  | _, [] => some []
  | 0, _ :: _ => none
  | fuel + 1, idByte :: rest =>
    match sectionTypeOfId (idByte % 256) with
    | none => none
    | some st =>
      match readUleb rest with
      | none => none
      | some (size, rest2) =>
        if size ≤ rest2.length then
          match parseSectionBody st (rest2.take size) with
          | none => none
          | some sec =>
            match parseSectionsF fuel (rest2.drop size) with
            | none => none
            | some secs => some (sec :: secs)
        else none

/-- Modelled from the spec: the section walk of the missing `parse_wasm`;
reads `id, ULEB128 size, body` until the buffer is exhausted, failing on
unknown ids or truncated sections. -/
def parseSections (l : List Nat) : Option (List Section) :=
  parseSectionsF l.length l

/-- Modelled from the spec: the missing `parse_wasm`.  Verifies the magic
bytes and version `01 00 00 00`, then parses the section sequence. -/
def parse_wasm (w : List Nat) : Option WasmModule :=
  if w.take 8 = [0x00, 0x61, 0x73, 0x6D, 0x01, 0x00, 0x00, 0x00] then
    match parseSections (w.drop 8) with
    | some secs => some ⟨1, secs⟩
    | none => none
  else none

/-- Modelled from the spec: the body bytes the writer emits for one section;
for custom sections the name length and name precede the payload. -/
def sectionBody (s : Section) : List Nat :=
  if s.section_type = .custom then
    writeUleb (s.name.getD []).length ++ s.name.getD [] ++ s.data
  else s.data

/-- Byte emission for a list of sections: `id, ULEB128 size, body` each. -/
def writeSections (secs : List Section) : List Nat :=
  secs.foldr
    (fun s acc =>
      s.section_type.to_id :: (writeUleb (sectionBody s).length ++ sectionBody s ++ acc))
    []

/-- Modelled from the spec: the missing `serialize_wasm`.  Emits
`magic, version LE32, (id, ULEB128 size, body)*` in section order. -/
def serialize_wasm (m : WasmModule) : List Nat :=
  [0x00, 0x61, 0x73, 0x6D] ++ le32 m.version ++ writeSections m.sections

/-- A section is well formed when exactly the custom sections carry a name
(the invariant stated in spec section 3). -/
def SecWF (s : Section) : Prop := s.section_type = .custom ↔ s.name.isSome

theorem parseSectionBody_wf {st : SectionType} {b : List Nat} {sec : Section}
    (h : parseSectionBody st b = some sec) :
    SecWF sec ∧ sec.section_type = st := by
  unfold parseSectionBody at h
  split at h
  · rename_i hc
    cases hr : readUleb b with
    | none => rw [hr] at h; cases h
    | some p =>
      rw [hr] at h
      cases p with
      | mk nameLen rest =>
        simp only at h
        split at h
        · cases h
          subst hc
          exact ⟨by simp [SecWF], rfl⟩
        · cases h
  · rename_i hc
    cases h
    exact ⟨by simp [SecWF, hc], rfl⟩

theorem parseSectionsF_wf :
    ∀ fuel (l : List Nat) (secs : List Section),
      parseSectionsF fuel l = some secs → ∀ s ∈ secs, SecWF s := by
  intro fuel
  induction fuel with
  | zero =>
    intro l secs h
    cases l with
    | nil =>
      simp only [parseSectionsF] at h
      cases h
      simp
    | cons b rest => simp [parseSectionsF] at h
  | succ f ih =>
    intro l secs h
    cases l with
    | nil =>
      simp only [parseSectionsF] at h
      cases h
      simp
    | cons idByte rest =>
      simp only [parseSectionsF] at h
      cases hid : sectionTypeOfId (idByte % 256) with
      | none => rw [hid] at h; cases h
      | some st =>
        rw [hid] at h
        cases hu : readUleb rest with
        | none => rw [hu] at h; cases h
        | some p =>
          rw [hu] at h
          cases p with
          | mk size rest2 =>
            simp only at h
            split at h
            · cases hb : parseSectionBody st (rest2.take size) with
              | none => rw [hb] at h; cases h
              | some sec =>
                rw [hb] at h
                cases hrec : parseSectionsF f (rest2.drop size) with
                | none => rw [hrec] at h; cases h
                | some secs2 =>
                  rw [hrec] at h
                  cases h
                  intro s hs
                  rcases List.mem_cons.mp hs with rfl | hs2
                  · exact (parseSectionBody_wf hb).1
                  · exact ih _ _ hrec s hs2
            · cases h

theorem parseSectionBody_roundtrip (s : Section) (hwf : SecWF s) :
    parseSectionBody s.section_type (sectionBody s) = some s := by
  obtain ⟨st, n, d⟩ := s
  unfold parseSectionBody sectionBody
  by_cases hc : st = .custom
  · simp only at hc
    rw [if_pos hc, if_pos hc]
    have hns : n.isSome := hwf.mp hc
    obtain ⟨nm, hnm⟩ := Option.isSome_iff_exists.mp hns
    subst hnm
    simp only [Option.getD_some]
    rw [List.append_assoc, readUleb_writeUleb]
    simp only
    rw [if_pos (by simp)]
    rw [List.take_left, List.drop_left]
    subst hc
    rfl
  · rw [if_neg hc, if_neg hc]
    have hn : n = none := by
      cases hn : n with
      | none => rfl
      | some nm => exact absurd (hwf.mpr (by simp [hn])) hc
    subst hn
    rfl

theorem parseSectionsF_roundtrip (secs : List Section)
    (hwf : ∀ s ∈ secs, SecWF s) :
    ∀ fuel, (writeSections secs).length ≤ fuel →
      parseSectionsF fuel (writeSections secs) = some secs := by
  induction secs with
  | nil =>
    intro fuel _
    cases fuel <;> rfl
  | cons s rest ih =>
    intro fuel hfuel
    have hws : writeSections (s :: rest) =
        s.section_type.to_id ::
          (writeUleb (sectionBody s).length ++ sectionBody s ++ writeSections rest) := by
      rfl
    rw [hws] at hfuel ⊢
    cases fuel with
    | zero => simp at hfuel
    | succ f =>
      simp only [parseSectionsF]
      rw [Nat.mod_eq_of_lt (to_id_lt _), sectionTypeOfId_to_id]
      rw [List.append_assoc, readUleb_writeUleb]
      simp only
      rw [if_pos (by simp)]
      rw [List.take_left, List.drop_left]
      rw [parseSectionBody_roundtrip s (hwf s (by simp))]
      rw [ih (fun t ht => hwf t (by simp [ht])) f (by
        simp only [List.length_cons, List.length_append] at hfuel
        omega)]

/-- C4.  For every byte sequence `W` the parser accepts, writing the parsed
module and re-parsing yields a structurally equal module: the same ordered
sections with identical kinds, custom names, and body bytes. -/
theorem parse_serialize_roundtrip (W : List Nat) (m : WasmModule)
    (h : parse_wasm W = some m) : parse_wasm (serialize_wasm m) = some m := by
  unfold parse_wasm at h
  split at h
  · cases hs : parseSections (W.drop 8) with
    | none => rw [hs] at h; cases h
    | some secs =>
      rw [hs] at h
      cases h
      have hser : serialize_wasm ⟨1, secs⟩ =
          [0x00, 0x61, 0x73, 0x6D, 0x01, 0x00, 0x00, 0x00] ++ writeSections secs := by
        simp [serialize_wasm, le32]
      unfold parse_wasm
      rw [hser]
      rw [if_pos (by simp [List.take_append])]
      have hdrop :
          ([0x00, 0x61, 0x73, 0x6D, 0x01, 0x00, 0x00, 0x00] ++
            writeSections secs).drop 8 = writeSections secs := rfl
      rw [hdrop]
      have hwf := parseSectionsF_wf _ _ _ hs
      rw [show parseSections (writeSections secs) =
        parseSectionsF (writeSections secs).length (writeSections secs) from rfl]
      rw [parseSectionsF_roundtrip secs hwf _ le_rfl]
  · cases h

/-- Spec scenario S1: the minimal module with Type, Function and Code
sections. -/
def s1Bytes : List Nat :=
  [0x00, 0x61, 0x73, 0x6D, 0x01, 0x00, 0x00, 0x00,
   0x01, 0x04, 0x01, 0x60, 0x00, 0x00,
   0x03, 0x02, 0x01, 0x00,
   0x0A, 0x04, 0x01, 0x02, 0x00, 0x0B]

/-- Witness for C4: the round trip evaluated on the concrete S1 module. -/
theorem parse_serialize_roundtrip_witness :
    parse_wasm (serialize_wasm ((parse_wasm s1Bytes).getD ⟨1, []⟩)) =
      some ((parse_wasm s1Bytes).getD ⟨1, []⟩) :=
  parse_serialize_roundtrip s1Bytes ((parse_wasm s1Bytes).getD ⟨1, []⟩)
    (by decide)

/-! ## Envelope codec (`crypto/engine.rs`, `crypto/plugins/mod.rs`,
`crypto/algorithms`)

The two AEAD cores (`Aes256Gcm` and `ChaCha20Poly1305` from their crates),
the random nonces the plugins draw, serde_json serialization of the envelope
header, and UTF-8 decoding are external to the engine; they are fields of
`CryptoExt` and the theorems state the contracts the engine relies on as
hypotheses.
-/

/-- The JSON envelope header built by `encrypt_data`: the `algorithm` string
field and the `nonce` byte-array field. -/
structure EnvHeader where
  algorithm : String
  nonce : List Nat
deriving DecidableEq, Repr

/-- External primitives used by the crypto engine. -/
structure CryptoExt where
  aesEnc : List Nat → List Nat → List Nat → List Nat
  aesDec : List Nat → List Nat → List Nat → Option (List Nat)
  chaEnc : List Nat → List Nat → List Nat → List Nat
  chaDec : List Nat → List Nat → List Nat → Option (List Nat)
  aesNonce : List Nat
  chaNonce : List Nat
  jsonSer : EnvHeader → List Nat
  jsonParse : List Nat → Option EnvHeader
  utf8Dec : List Nat → Option String

/-- `AesGcmPlugin::encrypt` and `ChaCha20Poly1305Plugin::encrypt`, with the
cipher core and the freshly drawn 12-byte nonce as parameters: reject keys
that are not 32 bytes, then emit `nonce ++ ciphertext_and_tag`. -/
def plugin_encrypt (enc : List Nat → List Nat → List Nat → List Nat)
    (nonce : List Nat) (data key : List Nat) : Option (List Nat) :=
  if key.length ≠ 32 then none
  else some (nonce ++ enc key nonce data)

/-- `AesGcmPlugin::decrypt` and `ChaCha20Poly1305Plugin::decrypt`: reject
inputs shorter than the nonce and keys that are not 32 bytes, then split the
leading 12-byte nonce off and call the cipher core. -/
def plugin_decrypt (dec : List Nat → List Nat → List Nat → Option (List Nat))
    (data key : List Nat) : Option (List Nat) :=
  if data.length < 12 then none
  else if key.length ≠ 32 then none
  else dec key (data.take 12) (data.drop 12)

/-- `plugins::encrypt_with_plugin` after `register_builtin_plugins`: lookup
over the two built-in providers. -/
def encrypt_with_plugin (E : CryptoExt) (data key : List Nat)
    (name : String) : Option (List Nat) :=
  if name = "aes-gcm" then plugin_encrypt E.aesEnc E.aesNonce data key
  else if name = "chacha20poly1305" then plugin_encrypt E.chaEnc E.chaNonce data key
  else none

/-- `plugins::decrypt_with_plugin` after `register_builtin_plugins`. -/
def decrypt_with_plugin (E : CryptoExt) (data key : List Nat)
    (name : String) : Option (List Nat) :=
  if name = "aes-gcm" then plugin_decrypt E.aesDec data key
  else if name = "chacha20poly1305" then plugin_decrypt E.chaDec data key
  else none

/-- UTF-8 bytes of a string, `str::as_bytes`. -/
def strBytes (s : String) : List Nat := s.toUTF8.toList.map (fun b => b.toNat)

/-- `encrypt_data` of `crypto/engine.rs`: AEAD-encrypt through the provider,
then frame the result.  For the two built-in algorithms (when the provider
output carries the 12-byte nonce) the new format
`header_len LE32, JSON header, ciphertext-without-nonce` is emitted; other
cases fall back to the legacy `name_len, name, provider_output` format. -/
def encrypt_data (E : CryptoExt) (data key : List Nat)
    (algorithm : String) : Option (List Nat) :=
  (encrypt_with_plugin E data key algorithm).bind fun encrypted =>
    if (algorithm = "aes-gcm" ∨ algorithm = "chacha20poly1305") ∧
        12 ≤ encrypted.length then
      some (le32 (E.jsonSer ⟨algorithm, encrypted.take 12⟩).length ++
        E.jsonSer ⟨algorithm, encrypted.take 12⟩ ++ encrypted.drop 12)
    else
      some ((strBytes algorithm).length % 256 :: (strBytes algorithm ++ encrypted))

/-- Legacy-format branch of `decrypt_data`: `name_len, name, ciphertext`. -/
def decrypt_data_legacy (E : CryptoExt) (data key : List Nat) :
    Option (List Nat) :=
  let algoLen := data.getD 0 0
  if data.length < 1 + algoLen then none
  else
    match E.utf8Dec ((data.drop 1).take algoLen) with
    | none => none
    | some algorithm => decrypt_with_plugin E (data.drop (1 + algoLen)) key algorithm

/-- `decrypt_data` of `crypto/engine.rs`: try the new JSON-header format
(re-attaching the header nonce in front of the ciphertext for the two
built-in algorithms), falling back to the legacy format when the header does
not parse. -/
def decrypt_data (E : CryptoExt) (data key : List Nat) : Option (List Nat) :=
  if data.length = 0 then none
  else if 4 ≤ data.length then
    if 4 + readLe32 (data.take 4) ≤ data.length then
      match E.jsonParse ((data.drop 4).take (readLe32 (data.take 4))) with
      | some h =>
        if h.algorithm = "aes-gcm" ∨ h.algorithm = "chacha20poly1305" then
          decrypt_with_plugin E
            (h.nonce.map (fun b => b % 256) ++ data.drop (4 + readLe32 (data.take 4)))
            key h.algorithm
        else
          decrypt_with_plugin E (data.drop (4 + readLe32 (data.take 4))) key h.algorithm
      | none => decrypt_data_legacy E data key
    else decrypt_data_legacy E data key
  else decrypt_data_legacy E data key

theorem map_mod256_of_lt {l : List Nat} (h : ∀ b ∈ l, b < 256) :
    l.map (fun b => b % 256) = l := by
  induction l with
  | nil => rfl
  | cons a t ih =>
    simp only [List.map_cons]
    rw [Nat.mod_eq_of_lt (h a (by simp)), ih (fun b hb => h b (by simp [hb]))]

theorem decrypt_data_new (E : CryptoExt) (K nonce ct P : List Nat)
    (alg : String)
    (hN : nonce.length = 12) (hNb : ∀ b ∈ nonce, b < 256) (hK : K.length = 32)
    (hjson : E.jsonParse (E.jsonSer ⟨alg, nonce⟩) = some ⟨alg, nonce⟩)
    (hlen : (E.jsonSer ⟨alg, nonce⟩).length < 4294967296)
    (halg : alg = "aes-gcm" ∨ alg = "chacha20poly1305")
    (dec : List Nat → List Nat → List Nat → Option (List Nat))
    (hdisp : ∀ d k, decrypt_with_plugin E d k alg = plugin_decrypt dec d k)
    (hdec : dec K nonce ct = some P) :
    decrypt_data E
      (le32 (E.jsonSer ⟨alg, nonce⟩).length ++ E.jsonSer ⟨alg, nonce⟩ ++ ct) K =
      some P := by
  set hdr := E.jsonSer ⟨alg, nonce⟩ with hhdr
  have hlen4 : (le32 hdr.length).length = 4 := by simp [le32]
  have htot : (le32 hdr.length ++ hdr ++ ct).length =
      4 + hdr.length + ct.length := by
    simp only [List.length_append, hlen4]
  have htake4 : (le32 hdr.length ++ hdr ++ ct).take 4 = le32 hdr.length := by
    rw [List.append_assoc, List.take_left' hlen4]
  have hdrop4 : (le32 hdr.length ++ hdr ++ ct).drop 4 = hdr ++ ct := by
    rw [List.append_assoc, List.drop_left' hlen4]
  have hdropAll : (le32 hdr.length ++ hdr ++ ct).drop (4 + hdr.length) = ct := by
    rw [List.drop_left' (by simp [hlen4])]
  unfold decrypt_data
  rw [if_neg (by omega)]
  rw [if_pos (by omega)]
  rw [htake4, readLe32_le32, Nat.mod_eq_of_lt hlen]
  rw [if_pos (by omega)]
  rw [hdrop4, List.take_left' rfl, hjson]
  simp only
  rw [if_pos halg]
  rw [hdropAll]
  rw [map_mod256_of_lt hNb, hdisp]
  unfold plugin_decrypt
  rw [if_neg (by simp [hN])]
  rw [if_neg (by omega)]
  rw [List.take_left' hN, List.drop_left' hN, hdec]

/-- C1.  Decrypting the output of `encrypt_data` with the same 32-byte key
recovers the plaintext, for both built-in algorithms, under the AEAD
round-trip contract of the cipher cores and the serde_json round-trip
contract for the envelope header. -/
theorem encrypt_then_decrypt (E : CryptoExt) (P K : List Nat) (A : String)
    (hA : A = "aes-gcm" ∨ A = "chacha20poly1305") (hK : K.length = 32)
    (haesN : E.aesNonce.length = 12) (haesNb : ∀ b ∈ E.aesNonce, b < 256)
    (hchaN : E.chaNonce.length = 12) (hchaNb : ∀ b ∈ E.chaNonce, b < 256)
    (haes : ∀ k n d, E.aesDec k n (E.aesEnc k n d) = some d)
    (hcha : ∀ k n d, E.chaDec k n (E.chaEnc k n d) = some d)
    (hjsonA : E.jsonParse (E.jsonSer ⟨"aes-gcm", E.aesNonce⟩) =
      some ⟨"aes-gcm", E.aesNonce⟩)
    (hjsonC : E.jsonParse (E.jsonSer ⟨"chacha20poly1305", E.chaNonce⟩) =
      some ⟨"chacha20poly1305", E.chaNonce⟩)
    (hlenA : (E.jsonSer ⟨"aes-gcm", E.aesNonce⟩).length < 4294967296)
    (hlenC : (E.jsonSer ⟨"chacha20poly1305", E.chaNonce⟩).length < 4294967296)
    (out : List Nat) (hout : encrypt_data E P K A = some out) :
    decrypt_data E out K = some P := by
  rcases hA with hA | hA <;> subst hA
  · have hplug : encrypt_with_plugin E P K "aes-gcm" =
        some (E.aesNonce ++ E.aesEnc K E.aesNonce P) := by
      simp [encrypt_with_plugin, plugin_encrypt, hK]
    rw [encrypt_data, hplug, Option.some_bind] at hout
    rw [if_pos ⟨Or.inl rfl, by simp [haesN]⟩] at hout
    rw [List.take_left' haesN, List.drop_left' haesN] at hout
    cases hout
    exact decrypt_data_new E K E.aesNonce (E.aesEnc K E.aesNonce P) P "aes-gcm"
      haesN haesNb hK hjsonA hlenA (Or.inl rfl) E.aesDec
      (fun d k => by simp [decrypt_with_plugin])
      (haes K E.aesNonce P)
  · have hplug : encrypt_with_plugin E P K "chacha20poly1305" =
        some (E.chaNonce ++ E.chaEnc K E.chaNonce P) := by
      simp [encrypt_with_plugin, plugin_encrypt, hK]
    rw [encrypt_data, hplug, Option.some_bind] at hout
    rw [if_pos ⟨Or.inr rfl, by simp [hchaN]⟩] at hout
    rw [List.take_left' hchaN, List.drop_left' hchaN] at hout
    cases hout
    exact decrypt_data_new E K E.chaNonce (E.chaEnc K E.chaNonce P) P
      "chacha20poly1305" hchaN hchaNb hK hjsonC hlenC (Or.inr rfl) E.chaDec
      (fun d k => by simp [decrypt_with_plugin])
      (hcha K E.chaNonce P)

/-- C2.  Layout of the new envelope format: a little-endian u32 header
length, then the serialized JSON header (whose algorithm field is the chosen
name and whose nonce field is exactly the 12 leading bytes of the provider
output), then the provider output with those 12 bytes removed. -/
theorem encrypt_data_envelope (E : CryptoExt) (P K : List Nat) (A : String)
    (hA : A = "aes-gcm" ∨ A = "chacha20poly1305") (hK : K.length = 32)
    (haesN : E.aesNonce.length = 12) (hchaN : E.chaNonce.length = 12)
    (hlenA : (E.jsonSer ⟨"aes-gcm", E.aesNonce⟩).length < 4294967296)
    (hlenC : (E.jsonSer ⟨"chacha20poly1305", E.chaNonce⟩).length < 4294967296) :
    ∃ pluginOut : List Nat,
      encrypt_with_plugin E P K A = some pluginOut ∧
      encrypt_data E P K A =
        some (le32 (E.jsonSer ⟨A, pluginOut.take 12⟩).length ++
          E.jsonSer ⟨A, pluginOut.take 12⟩ ++ pluginOut.drop 12) ∧
      pluginOut.take 12 = (if A = "aes-gcm" then E.aesNonce else E.chaNonce) ∧
      readLe32 (le32 (E.jsonSer ⟨A, pluginOut.take 12⟩).length) =
        (E.jsonSer ⟨A, pluginOut.take 12⟩).length := by
  rcases hA with hA | hA <;> subst hA
  · have hplug : encrypt_with_plugin E P K "aes-gcm" =
        some (E.aesNonce ++ E.aesEnc K E.aesNonce P) := by
      simp [encrypt_with_plugin, plugin_encrypt, hK]
    have htk : (E.aesNonce ++ E.aesEnc K E.aesNonce P).take 12 = E.aesNonce :=
      List.take_left' haesN
    refine ⟨_, hplug, ?_, ?_, ?_⟩
    · rw [encrypt_data, hplug, Option.some_bind,
        if_pos ⟨Or.inl rfl, by simp [haesN]⟩]
    · rw [htk, if_pos rfl]
    · rw [htk, readLe32_le32, Nat.mod_eq_of_lt hlenA]
  · have hplug : encrypt_with_plugin E P K "chacha20poly1305" =
        some (E.chaNonce ++ E.chaEnc K E.chaNonce P) := by
      simp [encrypt_with_plugin, plugin_encrypt, hK]
    have htk : (E.chaNonce ++ E.chaEnc K E.chaNonce P).take 12 = E.chaNonce :=
      List.take_left' hchaN
    refine ⟨_, hplug, ?_, ?_, ?_⟩
    · rw [encrypt_data, hplug, Option.some_bind,
        if_pos ⟨Or.inr rfl, by simp [hchaN]⟩]
    · rw [htk, if_neg (by decide)]
    · rw [htk, readLe32_le32, Nat.mod_eq_of_lt hlenC]

/-- Concrete external environment for witnesses: identity cipher cores and a
tag-byte header serialization satisfying the stated contracts. -/
def witnessExt : CryptoExt where
  aesEnc := fun _ _ d => d
  aesDec := fun _ _ c => some c
  chaEnc := fun _ _ d => d
  chaDec := fun _ _ c => some c
  aesNonce := [1, 2, 3, 4, 5, 6, 7, 8, 9, 10, 11, 12]
  chaNonce := [21, 22, 23, 24, 25, 26, 27, 28, 29, 30, 31, 32]
  jsonSer := fun h => (if h.algorithm = "aes-gcm" then 0 else 1) :: h.nonce
  jsonParse := fun l =>
    match l with
    | 0 :: r => some ⟨"aes-gcm", r⟩
    | 1 :: r => some ⟨"chacha20poly1305", r⟩
    | _ => none
  utf8Dec := fun _ => none

/-- A concrete 32-byte key for witnesses. -/
def key32 : List Nat := List.replicate 32 7

/-- Witness for C1: the round trip evaluated at a concrete plaintext, key and
algorithm. -/
theorem encrypt_then_decrypt_witness :
    decrypt_data witnessExt
      ((encrypt_data witnessExt [1, 2, 3] key32 "aes-gcm").getD []) key32 =
      some [1, 2, 3] :=
  encrypt_then_decrypt witnessExt [1, 2, 3] key32 "aes-gcm" (Or.inl rfl)
    (by decide) (by decide) (by decide) (by decide) (by decide)
    (fun _ _ _ => rfl) (fun _ _ _ => rfl) (by decide) (by decide)
    (by decide) (by decide) ((encrypt_data witnessExt [1, 2, 3] key32 "aes-gcm").getD [])
    (by decide)

/-- Witness for C2: the envelope layout evaluated at a concrete plaintext,
key and algorithm. -/
theorem encrypt_data_envelope_witness :
    ∃ pluginOut : List Nat,
      encrypt_with_plugin witnessExt [5] key32 "chacha20poly1305" = some pluginOut ∧
      encrypt_data witnessExt [5] key32 "chacha20poly1305" =
        some (le32 (witnessExt.jsonSer ⟨"chacha20poly1305", pluginOut.take 12⟩).length ++
          witnessExt.jsonSer ⟨"chacha20poly1305", pluginOut.take 12⟩ ++
          pluginOut.drop 12) ∧
      pluginOut.take 12 =
        (if "chacha20poly1305" = "aes-gcm" then witnessExt.aesNonce
          else witnessExt.chaNonce) ∧
      readLe32 (le32 (witnessExt.jsonSer
          ⟨"chacha20poly1305", pluginOut.take 12⟩).length) =
        (witnessExt.jsonSer ⟨"chacha20poly1305", pluginOut.take 12⟩).length :=
  encrypt_data_envelope witnessExt [5] key32 "chacha20poly1305" (Or.inr rfl)
    (by decide) (by decide) (by decide) (by decide) (by decide)

/-! ## Obfuscation level composition (`obfuscation/basic.rs`,
`obfuscation/engine.rs`, `obfuscation/mod.rs`) -/

/-- `ObfuscationLevel` of `obfuscation/types.rs`. -/
inductive ObfuscationLevel where
  | low | medium | high
deriving DecidableEq, Repr

/-- Names for the five transformation passes of `src/obfuscation`. -/
inductive TransformName where
  | renameLocals | addDeadCode | obfuscateControlFlow
  | splitLargeFunctions | virtualizeFunctions
deriving DecidableEq, Repr

/-- `basic::get_transformations`: the pass list `obfuscation::obfuscate`
applies for each level. -/
def get_transformations : ObfuscationLevel → List TransformName
  | .low => [.renameLocals]
  | .medium => [.renameLocals, .addDeadCode]
  | .high => [.renameLocals, .addDeadCode, .obfuscateControlFlow,
      .splitLargeFunctions]

/-- `engine::get_transformations_for_level`: the pass list
`engine::apply_obfuscation` applies for each level. -/
def get_transformations_for_level : ObfuscationLevel → List TransformName
  | .low => [.renameLocals]
  | .medium => [.renameLocals, .addDeadCode]
  | .high => [.renameLocals, .addDeadCode, .obfuscateControlFlow,
      .splitLargeFunctions, .virtualizeFunctions]

/-- `basic::apply_transformations`: a left fold (`try_fold`) threading each
pass output into the next pass; the meaning of each pass name is a
parameter. -/
def apply_transformations (interp : TransformName → WasmModule → Option WasmModule)
    (ts : List TransformName) (m : WasmModule) : Option WasmModule :=
  ts.foldlM (fun acc t => interp t acc) m

/-- `obfuscation::obfuscate`: applies the `basic::get_transformations` list
of the chosen level. -/
def obfuscate (interp : TransformName → WasmModule → Option WasmModule)
    (m : WasmModule) (level : ObfuscationLevel) : Option WasmModule :=
  apply_transformations interp (get_transformations level) m

/-- Counterexample to C3: the list `obfuscate` applies at level High is not
the five-element list ending in virtualization. -/
theorem obfuscate_high_not_five :
    ¬ (get_transformations .high =
      [.renameLocals, .addDeadCode, .obfuscateControlFlow,
        .splitLargeFunctions, .virtualizeFunctions]) := by
  decide

/-- C3 amended.  `obfuscate` at level High applies exactly the four
transformations rename, dead code, control flow and function splitting, in
that order, each receiving the previous output; the five-element list that
additionally ends with virtualization is the one used by
`engine::apply_obfuscation`. -/
theorem obfuscate_high_passes :
    get_transformations .high =
      [.renameLocals, .addDeadCode, .obfuscateControlFlow, .splitLargeFunctions] ∧
    get_transformations_for_level .high =
      [.renameLocals, .addDeadCode, .obfuscateControlFlow, .splitLargeFunctions,
        .virtualizeFunctions] ∧
    ∀ interp m,
      obfuscate interp m .high =
        (interp .renameLocals m).bind fun m1 =>
          (interp .addDeadCode m1).bind fun m2 =>
            (interp .obfuscateControlFlow m2).bind fun m3 =>
              interp .splitLargeFunctions m3 := by
  refine ⟨rfl, rfl, fun interp m => ?_⟩
  simp only [obfuscate, apply_transformations, get_transformations, List.foldlM,
    Option.bind_eq_bind, Option.pure_def]
  cases interp .renameLocals m with
  | none => simp
  | some m1 =>
    simp only [Option.some_bind]
    cases interp .addDeadCode m1 with
    | none => simp
    | some m2 =>
      simp only [Option.some_bind]
      cases interp .obfuscateControlFlow m2 with
      | none => simp
      | some m3 =>
        simp only [Option.some_bind]
        cases interp .splitLargeFunctions m3 <;> simp

/-! ## Local variable renaming (`obfuscation/variable_obfuscation.rs`)

The pass depends on two external pieces: the HMAC-SHA256 seed derivation and
the `StdRng` sample.  Together they determine, from the byte position and the
three bytes at it, a value in `0..=bound`; they are abstracted as an oracle
`rand` whose result is reduced modulo `bound + 1`, the range contract of
`random_range(0..=bound)`.
-/

/-- Fuelled scan over bytes with the high bit set, the
`while pos < len && data[pos] & 0x80 != 0 { pos += 1 }` loop shape. -/
def scanHigh : Nat → List Nat → Nat → Nat
  | 0, _, pos => pos
  | fuel + 1, data, pos =>
    if pos < data.length ∧ (data.getD pos 0) % 256 ≥ 128 then
      scanHigh fuel data (pos + 1)
    else pos

/-- `is_local_decl_pattern`: the three-byte window test. -/
def is_local_decl_pattern (bytes : List Nat) : Bool :=
  if bytes.length < 3 then false
  else if bytes.getD 0 0 = 0x41 ∧
      (let i := scanHigh bytes.length bytes 1 + 1
       i < bytes.length ∧ (bytes.getD i 0 = 0x21 ∨ bytes.getD i 0 = 0x22 ∨
         bytes.getD i 0 = 0x23)) then
    true
  else if bytes.getD 0 0 = 0x20 ∨ bytes.getD 0 0 = 0x22 then true
  else false

/-- `scramble_local_name`, with the HMAC-seeded `random_range(0..=bound)`
sample abstracted as `rand pos window bound % (bound + 1)`. -/
def scramble_local_name (rand : Nat → List Nat → Nat → Nat)
    (data : List Nat) (pos : Nat) : List Nat :=
  if data.length ≤ pos + 2 then data
  else if 0x20 ≤ data.getD pos 0 ∧ data.getD pos 0 ≤ 0x23 then
    if pos + 1 < data.length ∧ (data.getD (pos + 1) 0) % 256 < 128 then
      data.set (pos + 1)
        (rand pos ((data.drop pos).take 3) (min (data.getD (pos + 1) 0) 3) %
          (min (data.getD (pos + 1) 0) 3 + 1))
    else data
  else data

/-- One iteration of the scan in `rename_locals`: test the three-byte window
at `i` and scramble there when it matches. -/
def rename_step (rand : Nat → List Nat → Nat → Nat)
    (data : List Nat) (i : Nat) : List Nat :=
  if is_local_decl_pattern ((data.drop i).take 3) then
    scramble_local_name rand data i
  else data

/-- The byte-level body of `rename_locals` on one Code-section buffer: scan
positions `0 .. len - 3` in order, mutating in place. -/
def rename_locals_data (rand : Nat → List Nat → Nat → Nat)
    (data : List Nat) : List Nat :=
  (List.range (data.length - 2)).foldl (rename_step rand) data

/-- `rename_locals`: apply the byte-level scan to every Code section. -/
def rename_locals (rand : Nat → List Nat → Nat → Nat)
    (m : WasmModule) : WasmModule :=
  ⟨m.version,
    m.sections.map fun s =>
      if s.section_type = .code then
        ⟨s.section_type, s.name, rename_locals_data rand s.data⟩
      else s⟩

theorem scramble_length (rand : Nat → List Nat → Nat → Nat)
    (data : List Nat) (pos : Nat) :
    (scramble_local_name rand data pos).length = data.length := by
  unfold scramble_local_name
  split
  · rfl
  · split
    · split
      · simp
      · rfl
    · rfl

theorem rename_step_length (rand : Nat → List Nat → Nat → Nat)
    (data : List Nat) (i : Nat) :
    (rename_step rand data i).length = data.length := by
  unfold rename_step
  split
  · exact scramble_length rand data i
  · rfl

/-- The invariant carried through the scan: only operand bytes of single-byte
`local.get`/`local.tee` windows at already-visited positions have changed,
each to a value within `0..=min(original, 3)`. -/
def RenameInv (d : List Nat) (bound : Nat) (c : List Nat) : Prop :=
  c.length = d.length ∧
  ∀ j, c.getD j 0 ≠ d.getD j 0 →
    1 ≤ j ∧ j ≤ bound ∧
    (d.getD (j - 1) 0 = 0x20 ∨ d.getD (j - 1) 0 = 0x22) ∧
    (d.getD j 0) % 256 < 128 ∧
    c.getD j 0 ≤ min (d.getD j 0) 3

theorem getD_take_drop (c : List Nat) (i : Nat) :
    ((c.drop i).take 3).getD 0 0 = c.getD i 0 := by
  simp only [List.getD_eq_getElem?_getD]
  rw [List.getElem?_take_of_lt (by omega), List.getElem?_drop]
  simp

theorem pattern_head (w : List Nat) (hpat : is_local_decl_pattern w = true)
    (hne : w.getD 0 0 ≠ 0x41) :
    w.getD 0 0 = 0x20 ∨ w.getD 0 0 = 0x22 := by
  unfold is_local_decl_pattern at hpat
  split at hpat
  · cases hpat
  · split at hpat
    · rename_i hfirst
      exact absurd hfirst.1 hne
    · split at hpat
      · assumption
      · cases hpat

theorem rename_step_inv (rand : Nat → List Nat → Nat → Nat)
    (d c : List Nat) (i : Nat) (hInv : RenameInv d i c) :
    RenameInv d (i + 1) (rename_step rand c i) := by
  obtain ⟨hlen, hpts⟩ := hInv
  have hweak : RenameInv d (i + 1) c :=
    ⟨hlen, fun j hj => by
      have := hpts j hj
      exact ⟨this.1, by omega, this.2.2.1, this.2.2.2.1, this.2.2.2.2⟩⟩
  unfold rename_step
  split
  · rename_i hpat
    unfold scramble_local_name
    split
    · exact hweak
    · rename_i hlow
      split
      · rename_i hguard
        split
        · rename_i hsingle
          -- the write happens at position i + 1
          have hci : c.getD i 0 = d.getD i 0 := by
            by_contra hne
            have := (hpts i hne).2.2.2.2
            omega
          have hcj : c.getD (i + 1) 0 = d.getD (i + 1) 0 := by
            by_contra hne
            have := (hpts (i + 1) hne).2.1
            omega
          have hhead : c.getD i 0 = 0x20 ∨ c.getD i 0 = 0x22 := by
            have := pattern_head ((c.drop i).take 3) hpat
            rw [getD_take_drop] at this
            exact this (by omega)
          constructor
          · simp [hlen]
          · intro j hj
            by_cases hji : j = i + 1
            · subst hji
              have hwrite :
                  (c.set (i + 1)
                    (rand i ((c.drop i).take 3) (min (c.getD (i + 1) 0) 3) %
                      (min (c.getD (i + 1) 0) 3 + 1))).getD (i + 1) 0 =
                  rand i ((c.drop i).take 3) (min (c.getD (i + 1) 0) 3) %
                      (min (c.getD (i + 1) 0) 3 + 1) := by
                simp only [List.getD_eq_getElem?_getD]
                rw [List.getElem?_set_self (by omega)]
                rfl
              refine ⟨by omega, by omega, ?_, ?_, ?_⟩
              · rw [show i + 1 - 1 = i from rfl, ← hci]
                exact hhead
              · rw [← hcj]
                exact hsingle.2
              · rw [hwrite, hcj]
                have := Nat.mod_lt
                  (rand i ((c.drop i).take 3) (min (d.getD (i + 1) 0) 3))
                  (y := min (d.getD (i + 1) 0) 3 + 1) (by omega)
                omega
            · have hkeep :
                  (c.set (i + 1)
                    (rand i ((c.drop i).take 3) (min (c.getD (i + 1) 0) 3) %
                      (min (c.getD (i + 1) 0) 3 + 1))).getD j 0 = c.getD j 0 := by
                simp only [List.getD_eq_getElem?_getD]
                rw [List.getElem?_set_ne (by omega)]
              rw [hkeep] at hj
              have := hpts j hj
              exact ⟨this.1, by omega, this.2.2.1, this.2.2.2.1, by
                rw [hkeep]
                exact this.2.2.2.2⟩
        · exact hweak
      · exact hweak
  · exact hweak

theorem rename_fold_inv (rand : Nat → List Nat → Nat → Nat)
    (d : List Nat) :
    ∀ n, RenameInv d n ((List.range n).foldl (rename_step rand) d) := by
  intro n
  induction n with
  | zero => exact ⟨rfl, fun j hj => absurd rfl hj⟩
  | succ k ih =>
    rw [List.range_succ, List.foldl_append, List.foldl_cons, List.foldl_nil]
    exact rename_step_inv rand d _ k ih

/-- C8.  The renaming pass changes only single-byte, high-bit-clear index
operands of instructions whose opcode is in `0x20..=0x24`, replacing each
with a deterministically seeded value in `0..=min(original, 3)`; multi-byte
LEB128 operands are untouched and no index ever increases. -/
theorem rename_locals_band (rand : Nat → List Nat → Nat → Nat)
    (d : List Nat) :
    (rename_locals_data rand d).length = d.length ∧
    ∀ j, (rename_locals_data rand d).getD j 0 ≠ d.getD j 0 →
      1 ≤ j ∧ 0x20 ≤ d.getD (j - 1) 0 ∧ d.getD (j - 1) 0 ≤ 0x24 ∧
      (d.getD j 0) % 256 < 128 ∧
      (rename_locals_data rand d).getD j 0 ≤ min (d.getD j 0) 3 := by
  have h := rename_fold_inv rand d (d.length - 2)
  obtain ⟨hlen, hpts⟩ := h
  refine ⟨hlen, fun j hj => ?_⟩
  have := hpts j hj
  exact ⟨this.1, by rcases this.2.2.1 with h | h <;> omega,
    by rcases this.2.2.1 with h | h <;> omega, this.2.2.2.1, this.2.2.2.2⟩

/-- Witness for C8: a concrete `local.get 5` window is rewritten into the
`0..=3` band. -/
theorem rename_locals_band_witness :
    (rename_locals_data (fun _ _ _ => 2) [0x20, 0x05, 0x0B]).getD 1 0 ≤
      min (([0x20, 0x05, 0x0B] : List Nat).getD 1 0) 3 :=
  ((rename_locals_band (fun _ _ _ => 2) [0x20, 0x05, 0x0B]).2 1
    (by decide)).2.2.2.2

/-! ## Stack analysis and safe split points
(`obfuscation/function_split.rs`) -/

/-- `WasmInstrType` of `obfuscation/function_split.rs`. -/
inductive WasmInstrType where
  | push | pop | blockEnd | blockStart | neutral | branch | call | ret | other
deriving DecidableEq, Repr

/-- `analyze_instr`: opcode category and stack delta.  The arms are kept in
source order; in particular the `0x0C..=0x0F` branch arm precedes the `0x0F`
return arm, exactly as in the Rust match, making the return arm
unreachable. -/
def analyze_instr (opcode : Nat) : WasmInstrType × Int :=
  if opcode = 0x41 then (.push, 1)
  else if opcode = 0x42 then (.push, 1)
  else if opcode = 0x43 then (.push, 1)
  else if opcode = 0x44 then (.push, 1)
  else if opcode = 0x20 then (.push, 1)
  else if opcode = 0x21 then (.pop, -1)
  else if opcode = 0x22 then (.neutral, 0)
  else if opcode = 0x23 then (.push, 1)
  else if opcode = 0x24 then (.pop, -1)
  else if 0x28 ≤ opcode ∧ opcode ≤ 0x3E then (.neutral, 0)
  else if opcode = 0x02 then (.blockStart, 0)
  else if opcode = 0x03 then (.blockStart, 0)
  else if opcode = 0x04 then (.blockStart, -1)
  else if opcode = 0x05 then (.blockEnd, 0)
  else if opcode = 0x0B then (.blockEnd, 0)
  else if 0x0C ≤ opcode ∧ opcode ≤ 0x0F then (.branch, 0)
  else if opcode = 0x10 then (.call, 0)
  else if opcode = 0x11 then (.call, 0)
  else if opcode = 0x0F then (.ret, 0)
  else if 0x6A ≤ opcode ∧ opcode ≤ 0x7F then (.neutral, -1)
  else if 0x45 ≤ opcode ∧ opcode ≤ 0x69 then (.neutral, -1)
  else (.other, 0)

/-- The LEB128 operand skip of `find_safe_split_points`: advance over bytes
with the high bit set, then one more byte when available. -/
def leb_operand_skip (body : List Nat) (pos : Nat) : Nat :=
  let q := scanHigh body.length body pos
  if q < body.length then q + 1 else q

/-- Operand skipping of `find_safe_split_points`, by opcode. -/
def split_operand_skip (body : List Nat) (opcode pos : Nat) : Nat :=
  if opcode = 0x41 ∨ opcode = 0x42 then leb_operand_skip body pos
  else if opcode = 0x43 then pos + min 4 (body.length - pos)
  else if opcode = 0x44 then pos + min 8 (body.length - pos)
  else if 0x20 ≤ opcode ∧ opcode ≤ 0x24 then leb_operand_skip body pos
  else if opcode = 0x10 then leb_operand_skip body pos
  else pos

/-- Fuelled main loop of `find_safe_split_points`. -/
def splitLoop : Nat → List Nat → Nat → Int → Nat → Nat → List Nat → List Nat
  | 0, _, _, _, _, _, acc => acc
  | fuel + 1, body, pos, stack, block, last, acc =>
    if pos < body.length then
      let opcode := body.getD pos 0
      let ti := analyze_instr opcode
      let stack1 := stack + ti.2
      let block1 :=
        if ti.1 = .blockStart then block + 1
        else if ti.1 = .blockEnd then (if 0 < block then block - 1 else block)
        else block
      let hit := stack1 = 0 ∧ block1 = 0 ∧ ti.1 ≠ .ret ∧ 10 ≤ pos + 1 - last
      splitLoop fuel body (split_operand_skip body opcode (pos + 1)) stack1
        block1 (if hit then pos + 1 else last)
        (if hit then acc ++ [pos + 1] else acc)
    else acc

/-- `find_safe_split_points`: skip the local declarations, then walk the
instruction stream collecting positions where the tracked stack depth is 0,
no block is open, the analyzer category is not `ret`, and the distance from
the previous collected point is at least 10. -/
def find_safe_split_points (body : List Nat) : List Nat :=
  if body.length = 0 then []
  else
    splitLoop (body.length + 1) body
      ((List.range (body.getD 0 0)).foldl
        (fun p _ => if p + 1 < body.length then p + 2 else p) 1)
      0 0
      ((List.range (body.getD 0 0)).foldl
        (fun p _ => if p + 1 < body.length then p + 2 else p) 1)
      []

/-- A 111-byte function body: empty local declarations, 109 `nop`s, then a
`return` (0x0F) as the final instruction. -/
def retBody : List Nat := 0x00 :: (List.replicate 109 0x01 ++ [0x0F])

set_option maxRecDepth 100000 in
/-- C9 failing input.  The split-point finder selects position 111, which is
immediately after the `return` opcode 0x0F at offset 110: `analyze_instr`
classifies 0x0F as `branch` because the `0x0C..=0x0F` arm shadows the `0x0F`
return arm, so the documented not-after-return condition never fires. -/
theorem split_point_right_after_return :
    111 ∈ find_safe_split_points retBody ∧
    retBody.getD 110 0 = 0x0F ∧
    (analyze_instr 0x0F).1 = .branch := by
  decide

/-! ## VM bytecode encryption (`obfuscation/virtualization.rs`) and
decryption (`obfuscation/interpreter.rs`)

SHA-256 (the `sha2` crate) and the random salt are external; `sha` maps the
concatenated hasher input to the 32-byte digest and the 8-byte salt is a
parameter.
-/

/-- `u8::rotate_right(4)` (identical to `rotate_left(4)` on 8 bits): the two
nibbles of the low byte swap. -/
def nibbleSwap (b : Nat) : Nat := b % 16 * 16 + b % 256 / 16

/-- The per-byte transform of `encrypt_vm_bytecode`: XOR with the keystream
byte, swap low-nibble 0x0 and 0xF, rotate by four bits. -/
def encByte (keyByte b : Nat) : Nat :=
  nibbleSwap
    (let e1 := b ^^^ keyByte
     if e1 % 16 = 0 then e1 % 256 / 16 * 16 + 0x0F
     else if e1 % 16 = 0x0F then e1 % 256 / 16 * 16
     else e1)

/-- The per-byte transform of `decrypt_bytecode`: rotate by four bits, swap
low-nibble 0x0 and 0xF, XOR with the key byte. -/
def decByte (keyByte b : Nat) : Nat :=
  (let d1 := nibbleSwap b
   if d1 % 16 = 0x0F then d1 % 256 / 16 * 16
   else if d1 % 16 = 0 then d1 % 256 / 16 * 16 + 0x0F
   else d1) ^^^ keyByte

/-- `encrypt_vm_bytecode`: take the last 16 metadata bytes as the key, derive
keystream block 0 as `sha(key ++ salt)`, derive each further block as
`sha(previous_block ++ [chunk_len])`, emit the salt followed by the
transformed bytecode. -/
def encrypt_vm_bytecode (sha : List Nat → List Nat) (salt : List Nat)
    (bytecode metadata : List Nat) : List Nat :=
  let key := metadata.drop (metadata.length - 16)
  let ks :=
    ((List.range ((bytecode.length + 31) / 32)).foldl
      (fun (p : List Nat × List Nat) i =>
        (p.1 ++ p.2, sha (p.2 ++ [min 32 (bytecode.length - 32 * i)])))
      ([], sha (key ++ salt))).1
  salt ++ (List.range bytecode.length).map
    (fun i => encByte (ks.getD (i % ks.length) 0) (bytecode.getD i 0))

/-- `decrypt_bytecode` of `obfuscation/interpreter.rs`: require 24 bytes of
metadata, take metadata bytes 8..24 as the key, and apply the inverse
per-byte transform with the raw key bytes cycled — no salt is consumed and
no SHA-256 keystream is derived. -/
def decrypt_bytecode (encrypted metadata : List Nat) : Option (List Nat) :=
  if metadata.length < 24 then none
  else
    some ((List.range encrypted.length).map
      (fun i => decByte (((metadata.drop 8).take 16).getD
        (i % ((metadata.drop 8).take 16).length) 0) (encrypted.getD i 0)))

/-- C6.  `decrypt_bytecode` never inverts `encrypt_vm_bytecode` under the
metadata layout of `create_vm_metadata` (40 bytes): the encryptor prepends
the 8-byte salt, which the decryptor transforms instead of consuming, so the
output is 8 bytes longer than the original opcode stream. -/
theorem decrypt_encrypt_vm_mismatch (sha : List Nat → List Nat)
    (salt bytecode metadata : List Nat)
    (hs : salt.length = 8) (hm : metadata.length = 40) :
    decrypt_bytecode (encrypt_vm_bytecode sha salt bytecode metadata)
      metadata ≠ some bytecode := by
  intro h
  unfold decrypt_bytecode at h
  rw [if_neg (by omega)] at h
  have hlen := congrArg (fun o => (o.getD []).length) h
  simp only [Option.getD_some, List.length_map, List.length_range] at hlen
  unfold encrypt_vm_bytecode at hlen
  simp only [List.length_append, List.length_map, List.length_range, hs] at hlen
  omega

/-- Witness for C6 at a concrete opcode stream, salt, metadata and digest
function. -/
theorem decrypt_encrypt_vm_mismatch_witness :
    decrypt_bytecode
      (encrypt_vm_bytecode (fun _ => List.replicate 32 0)
        (List.replicate 8 0) [0xFF] (List.replicate 40 0))
      (List.replicate 40 0) ≠ some [0xFF] :=
  decrypt_encrypt_vm_mismatch (fun _ => List.replicate 32 0)
    (List.replicate 8 0) [0xFF] (List.replicate 40 0) (by decide) (by decide)

/-! ## Wasm to VM translation (`obfuscation/virtualization.rs`,
`convert_to_vm_bytecode`)

The translator walks the remaining instruction bytes; the random draws taken
in the default arm are abstracted as the oracles `roll` (the
`random_range(0..10)` stream, used modulo 10) and `rbyte` (the obfuscation
byte stream, used modulo 256), indexed by a call counter.
-/

/-- EOF-tolerant LEB128 value read used inside `convert_to_vm_bytecode`:
returns the accumulated value and the remaining bytes (`(0, [])` at the end
of the buffer, matching the translator's default-0 operand). -/
def listUleb : List Nat → Nat → Nat × List Nat
  | [], _ => (0, [])
  | b :: rest, shift =>
    if b % 256 < 128 then ((b % 128) <<< shift, rest)
    else
      (((b % 128) <<< shift) ||| (listUleb rest (shift + 7)).1,
        (listUleb rest (shift + 7)).2)

theorem listUleb_length : ∀ (l : List Nat) (s : Nat),
    (listUleb l s).2.length ≤ l.length := by
  intro l
  induction l with
  | nil => intro s; simp [listUleb]
  | cons b rest ih =>
    intro s
    simp only [listUleb]
    split
    · simp
    · exact Nat.le_trans (ih (s + 7)) (by simp)

/-- One iteration of `convert_to_vm_bytecode`: given the opcode and the
remaining bytes, the emitted VM bytes, the bytes left, and the updated
random-draw counter (`none` models the `func_body[i]` panic reachable in the
`call_indirect` arm). -/
def convertStep (roll rbyte : Nat → Nat) (ctr : Nat) (op : Nat)
    (rest : List Nat) : Option (List Nat × List Nat × Nat) :=
  if op = 0x41 then
    some (0x01 :: le32 (listUleb rest 0).1, (listUleb rest 0).2, ctr)
  else if op = 0x42 then
    some (0x01 :: 0x01 :: le32 (listUleb rest 0).1, (listUleb rest 0).2, ctr)
  else if op = 0x43 then
    if 4 ≤ rest.length then
      some (0x01 :: 0x02 :: rest.take 4, rest.drop 4, ctr)
    else some (0x01 :: 0x02 :: le32 0, rest, ctr)
  else if op = 0x44 then
    if 4 ≤ rest.length then
      some (0x01 :: 0x03 :: rest.take 4, rest.drop 8, ctr)
    else some (0x01 :: 0x03 :: le32 0, rest, ctr)
  else if op = 0x20 then
    some (0x40 :: le32 (listUleb rest 0).1, (listUleb rest 0).2, ctr)
  else if op = 0x21 then
    some (0x41 :: le32 (listUleb rest 0).1, (listUleb rest 0).2, ctr)
  else if op = 0x22 then
    some (0x03 :: 0x41 :: le32 (listUleb rest 0).1, (listUleb rest 0).2, ctr)
  else if op = 0x23 then
    some (0x45 :: le32 (listUleb rest 0).1, (listUleb rest 0).2, ctr)
  else if op = 0x24 then
    some (0x46 :: le32 (listUleb rest 0).1, (listUleb rest 0).2, ctr)
  else if op = 0x6A then some ([0x10], rest, ctr)
  else if op = 0x6B then some ([0x11], rest, ctr)
  else if op = 0x6C then some ([0x12], rest, ctr)
  else if op = 0x6D then some ([0x13], rest, ctr)
  else if op = 0x6E then some ([0x13, 0x01], rest, ctr)
  else if op = 0x6F then some ([0x14], rest, ctr)
  else if op = 0x70 then some ([0x14, 0x01], rest, ctr)
  else if op = 0x71 then some ([0x20], rest, ctr)
  else if op = 0x72 then some ([0x21], rest, ctr)
  else if op = 0x73 then some ([0x22], rest, ctr)
  else if op = 0x45 then
    some (0x01 :: 0x00 :: (le32 0 ++ [0x47, 0x00]), rest, ctr)
  else if op = 0x46 then some ([0x47, 0x00], rest, ctr)
  else if op = 0x47 then some ([0x47, 0x01], rest, ctr)
  else if op = 0x48 then some ([0x47, 0x02], rest, ctr)
  else if op = 0x49 then some ([0x47, 0x03], rest, ctr)
  else if op = 0x4A then some ([0x47, 0x04], rest, ctr)
  else if op = 0x4B then some ([0x47, 0x05], rest, ctr)
  else if op = 0x28 then
    if 2 ≤ rest.length then
      some ([0x48, rest.getD 0 0, rest.getD 1 0], rest.drop 2, ctr)
    else some ([0x48, 0, 0], rest, ctr)
  else if op = 0x36 then
    if 2 ≤ rest.length then
      some ([0x49, rest.getD 0 0, rest.getD 1 0], rest.drop 2, ctr)
    else some ([0x49, 0, 0], rest, ctr)
  else if op = 0x0C then
    some (0x30 :: le32 (listUleb rest 0).1, (listUleb rest 0).2, ctr)
  else if op = 0x0D then
    some (0x31 :: le32 (listUleb rest 0).1, (listUleb rest 0).2, ctr)
  else if op = 0x0F then some ([0x33], rest, ctr)
  else if op = 0x10 then
    some (0x32 :: le32 (listUleb rest 0).1, (listUleb rest 0).2, ctr)
  else if op = 0x11 then
    if 2 ≤ rest.length then
      match (listUleb rest 0).2 with
      | [] => none
      | tb :: r2 => some (0x50 :: (le32 (listUleb rest 0).1 ++ [tb]), r2, ctr)
    else some (0x50 :: (le32 0 ++ [0]), rest, ctr)
  else if op = 0x01 then some ([0xF0], rest, ctr)
  else if op = 0x1A then some ([0x02], rest, ctr)
  else if op = 0x1B then some ([0x51], rest, ctr)
  else
    some (0xF0 :: op ::
      (if roll ctr % 10 < 3 then [rbyte ctr % 256] else []), rest, ctr + 1)

set_option maxHeartbeats 2000000 in
theorem convertStep_length (roll rbyte : Nat → Nat) (ctr op : Nat)
    (rest : List Nat) (e r2 : List Nat) (c2 : Nat)
    (h : convertStep roll rbyte ctr op rest = some (e, r2, c2)) :
    r2.length ≤ rest.length := by
  have hu := listUleb_length rest 0
  unfold convertStep at h
  by_cases hop0 : op = 0x41
  · rw [if_pos hop0] at h
    cases h
    exact hu
  · rw [if_neg hop0] at h
    by_cases hop1 : op = 0x42
    · rw [if_pos hop1] at h
      cases h
      exact hu
    · rw [if_neg hop1] at h
      by_cases hop2 : op = 0x43
      · rw [if_pos hop2] at h
        by_cases hin2 : 4 ≤ rest.length
        · rw [if_pos hin2] at h
          cases h
          simp only [List.length_drop]
          omega
        · rw [if_neg hin2] at h
          cases h
          exact le_rfl
      · rw [if_neg hop2] at h
        by_cases hop3 : op = 0x44
        · rw [if_pos hop3] at h
          by_cases hin3 : 4 ≤ rest.length
          · rw [if_pos hin3] at h
            cases h
            simp only [List.length_drop]
            omega
          · rw [if_neg hin3] at h
            cases h
            exact le_rfl
        · rw [if_neg hop3] at h
          by_cases hop4 : op = 0x20
          · rw [if_pos hop4] at h
            cases h
            exact hu
          · rw [if_neg hop4] at h
            by_cases hop5 : op = 0x21
            · rw [if_pos hop5] at h
              cases h
              exact hu
            · rw [if_neg hop5] at h
              by_cases hop6 : op = 0x22
              · rw [if_pos hop6] at h
                cases h
                exact hu
              · rw [if_neg hop6] at h
                by_cases hop7 : op = 0x23
                · rw [if_pos hop7] at h
                  cases h
                  exact hu
                · rw [if_neg hop7] at h
                  by_cases hop8 : op = 0x24
                  · rw [if_pos hop8] at h
                    cases h
                    exact hu
                  · rw [if_neg hop8] at h
                    by_cases hop9 : op = 0x6A
                    · rw [if_pos hop9] at h
                      cases h
                      exact le_rfl
                    · rw [if_neg hop9] at h
                      by_cases hop10 : op = 0x6B
                      · rw [if_pos hop10] at h
                        cases h
                        exact le_rfl
                      · rw [if_neg hop10] at h
                        by_cases hop11 : op = 0x6C
                        · rw [if_pos hop11] at h
                          cases h
                          exact le_rfl
                        · rw [if_neg hop11] at h
                          by_cases hop12 : op = 0x6D
                          · rw [if_pos hop12] at h
                            cases h
                            exact le_rfl
                          · rw [if_neg hop12] at h
                            by_cases hop13 : op = 0x6E
                            · rw [if_pos hop13] at h
                              cases h
                              exact le_rfl
                            · rw [if_neg hop13] at h
                              by_cases hop14 : op = 0x6F
                              · rw [if_pos hop14] at h
                                cases h
                                exact le_rfl
                              · rw [if_neg hop14] at h
                                by_cases hop15 : op = 0x70
                                · rw [if_pos hop15] at h
                                  cases h
                                  exact le_rfl
                                · rw [if_neg hop15] at h
                                  by_cases hop16 : op = 0x71
                                  · rw [if_pos hop16] at h
                                    cases h
                                    exact le_rfl
                                  · rw [if_neg hop16] at h
                                    by_cases hop17 : op = 0x72
                                    · rw [if_pos hop17] at h
                                      cases h
                                      exact le_rfl
                                    · rw [if_neg hop17] at h
                                      by_cases hop18 : op = 0x73
                                      · rw [if_pos hop18] at h
                                        cases h
                                        exact le_rfl
                                      · rw [if_neg hop18] at h
                                        by_cases hop19 : op = 0x45
                                        · rw [if_pos hop19] at h
                                          cases h
                                          exact le_rfl
                                        · rw [if_neg hop19] at h
                                          by_cases hop20 : op = 0x46
                                          · rw [if_pos hop20] at h
                                            cases h
                                            exact le_rfl
                                          · rw [if_neg hop20] at h
                                            by_cases hop21 : op = 0x47
                                            · rw [if_pos hop21] at h
                                              cases h
                                              exact le_rfl
                                            · rw [if_neg hop21] at h
                                              by_cases hop22 : op = 0x48
                                              · rw [if_pos hop22] at h
                                                cases h
                                                exact le_rfl
                                              · rw [if_neg hop22] at h
                                                by_cases hop23 : op = 0x49
                                                · rw [if_pos hop23] at h
                                                  cases h
                                                  exact le_rfl
                                                · rw [if_neg hop23] at h
                                                  by_cases hop24 : op = 0x4A
                                                  · rw [if_pos hop24] at h
                                                    cases h
                                                    exact le_rfl
                                                  · rw [if_neg hop24] at h
                                                    by_cases hop25 : op = 0x4B
                                                    · rw [if_pos hop25] at h
                                                      cases h
                                                      exact le_rfl
                                                    · rw [if_neg hop25] at h
                                                      by_cases hop26 : op = 0x28
                                                      · rw [if_pos hop26] at h
                                                        by_cases hin26 : 2 ≤ rest.length
                                                        · rw [if_pos hin26] at h
                                                          cases h
                                                          simp only [List.length_drop]
                                                          omega
                                                        · rw [if_neg hin26] at h
                                                          cases h
                                                          exact le_rfl
                                                      · rw [if_neg hop26] at h
                                                        by_cases hop27 : op = 0x36
                                                        · rw [if_pos hop27] at h
                                                          by_cases hin27 : 2 ≤ rest.length
                                                          · rw [if_pos hin27] at h
                                                            cases h
                                                            simp only [List.length_drop]
                                                            omega
                                                          · rw [if_neg hin27] at h
                                                            cases h
                                                            exact le_rfl
                                                        · rw [if_neg hop27] at h
                                                          by_cases hop28 : op = 0x0C
                                                          · rw [if_pos hop28] at h
                                                            cases h
                                                            exact hu
                                                          · rw [if_neg hop28] at h
                                                            by_cases hop29 : op = 0x0D
                                                            · rw [if_pos hop29] at h
                                                              cases h
                                                              exact hu
                                                            · rw [if_neg hop29] at h
                                                              by_cases hop30 : op = 0x0F
                                                              · rw [if_pos hop30] at h
                                                                cases h
                                                                exact le_rfl
                                                              · rw [if_neg hop30] at h
                                                                by_cases hop31 : op = 0x10
                                                                · rw [if_pos hop31] at h
                                                                  cases h
                                                                  exact hu
                                                                · rw [if_neg hop31] at h
                                                                  by_cases hop32 : op = 0x11
                                                                  · rw [if_pos hop32] at h
                                                                    by_cases hin32 : 2 ≤ rest.length
                                                                    · rw [if_pos hin32] at h
                                                                      rcases hm : (listUleb rest 0).2 with _ | ⟨tb, r3⟩
                                                                      · rw [hm] at h
                                                                        cases h
                                                                      · rw [hm] at h
                                                                        cases h
                                                                        rw [hm] at hu
                                                                        simp only [List.length_cons] at hu
                                                                        omega
                                                                    · rw [if_neg hin32] at h
                                                                      cases h
                                                                      exact le_rfl
                                                                  · rw [if_neg hop32] at h
                                                                    by_cases hop33 : op = 0x01
                                                                    · rw [if_pos hop33] at h
                                                                      cases h
                                                                      exact le_rfl
                                                                    · rw [if_neg hop33] at h
                                                                      by_cases hop34 : op = 0x1A
                                                                      · rw [if_pos hop34] at h
                                                                        cases h
                                                                        exact le_rfl
                                                                      · rw [if_neg hop34] at h
                                                                        by_cases hop35 : op = 0x1B
                                                                        · rw [if_pos hop35] at h
                                                                          cases h
                                                                          exact le_rfl
                                                                        · rw [if_neg hop35] at h
                                                                          cases h
                                                                          exact le_rfl

/-- Fuelled body of `convert_to_vm_bytecode`: one `convertStep` per source
opcode. -/
def convertLoop (roll rbyte : Nat → Nat) :
    Nat → List Nat → Nat → Option (List Nat)
  | _, [], _ => some []
  | 0, _ :: _, _ => none
  | fuel + 1, op :: rest, ctr =>
    match convertStep roll rbyte ctr op rest with
    | none => none
    | some (e, r2, c2) =>
      (convertLoop roll rbyte fuel r2 c2).map (fun t => e ++ t)

theorem convertLoop_stable (roll rbyte : Nat → Nat) :
    ∀ f1 f2 (l : List Nat) ctr, l.length ≤ f1 → l.length ≤ f2 →
      convertLoop roll rbyte f1 l ctr = convertLoop roll rbyte f2 l ctr := by
  intro f1
  induction f1 with
  | zero =>
    intro f2 l ctr h1 _
    have : l = [] := List.length_eq_zero.mp (Nat.le_zero.mp h1)
    subst this
    cases f2 <;> rfl
  | succ g1 ih =>
    intro f2 l ctr h1 h2
    cases l with
    | nil => cases f2 <;> rfl
    | cons op rest =>
      cases f2 with
      | zero => simp at h2
      | succ g2 =>
        simp only [convertLoop]
        cases hs : convertStep roll rbyte ctr op rest with
        | none => rfl
        | some trip =>
          obtain ⟨e, r2, c2⟩ := trip
          have hlen := convertStep_length roll rbyte ctr op rest e r2 c2 hs
          simp only [List.length_cons] at h1 h2
          show Option.map (fun t => e ++ t) (convertLoop roll rbyte g1 r2 c2) =
            Option.map (fun t => e ++ t) (convertLoop roll rbyte g2 r2 c2)
          rw [ih g2 r2 c2 (by omega) (by omega)]

/-- The translator loop applied to a byte suffix with its canonical fuel. -/
def convertRest (roll rbyte : Nat → Nat) (l : List Nat) (ctr : Nat) :
    Option (List Nat) :=
  convertLoop roll rbyte l.length l ctr

/-- `convert_to_vm_bytecode`: translate the whole body, then append the Exit
opcode 0xFF. -/
def convert_to_vm_bytecode (roll rbyte : Nat → Nat) (body : List Nat) :
    Option (List Nat) :=
  (convertRest roll rbyte body 0).map (fun t => t ++ [0xFF])

theorem listUleb_single (v : Nat) (hv : v < 128) (rest : List Nat) :
    listUleb (v :: rest) 0 = (v, rest) := by
  simp [listUleb, Nat.mod_eq_of_lt (show v < 256 by omega),
    Nat.mod_eq_of_lt hv, Nat.shiftLeft_zero, hv]

/-- Counterexample to C7: the translator emits neither a 1-byte Push
immediate nor 2-byte big-endian Jump targets; both operands are 4-byte
little-endian. -/
theorem convert_not_narrow_operands :
    convert_to_vm_bytecode (fun _ => 0) (fun _ => 0) [0x41, 0x05] ≠
      some [0x01, 0x05, 0xFF] ∧
    convert_to_vm_bytecode (fun _ => 0) (fun _ => 0) [0x0C, 0x02] ≠
      some [0x30, 0x00, 0x02, 0xFF] ∧
    convert_to_vm_bytecode (fun _ => 0) (fun _ => 0) [0x41, 0x05] =
      some [0x01, 0x05, 0x00, 0x00, 0x00, 0xFF] ∧
    convert_to_vm_bytecode (fun _ => 0) (fun _ => 0) [0x0C, 0x02] =
      some [0x30, 0x02, 0x00, 0x00, 0x00, 0xFF] := by
  decide

/-- C7 amended.  In the translator output, `i32.const` becomes Push followed
by the 4-byte little-endian immediate, and `br` / `br_if` become Jump /
JumpIf followed by a 4-byte little-endian target (the `vm.rs` interpreter,
by contrast, consumes a 1-byte Push operand and 2-byte big-endian jump
targets). -/
theorem convert_operand_widths (roll rbyte : Nat → Nat) (v : Nat)
    (hv : v < 128) (rest : List Nat) :
    convert_to_vm_bytecode roll rbyte (0x41 :: v :: rest) =
      (convertRest roll rbyte rest 0).map
        (fun t => 0x01 :: (le32 v ++ (t ++ [0xFF]))) ∧
    convert_to_vm_bytecode roll rbyte (0x0C :: v :: rest) =
      (convertRest roll rbyte rest 0).map
        (fun t => 0x30 :: (le32 v ++ (t ++ [0xFF]))) ∧
    convert_to_vm_bytecode roll rbyte (0x0D :: v :: rest) =
      (convertRest roll rbyte rest 0).map
        (fun t => 0x31 :: (le32 v ++ (t ++ [0xFF]))) := by
  have hul := listUleb_single v hv rest
  refine ⟨?_, ?_, ?_⟩
  · have hstep : convertStep roll rbyte 0 0x41 (v :: rest) =
        some (0x01 :: le32 v, rest, 0) := by
      simp [convertStep, hul]
    simp only [convert_to_vm_bytecode, convertRest, List.length_cons,
      convertLoop, hstep]
    rw [convertLoop_stable roll rbyte (rest.length + 1) rest.length rest 0
      (by omega) le_rfl]
    cases convertLoop roll rbyte rest.length rest 0 <;> simp
  · have hstep : convertStep roll rbyte 0 0x0C (v :: rest) =
        some (0x30 :: le32 v, rest, 0) := by
      simp [convertStep, hul]
    simp only [convert_to_vm_bytecode, convertRest, List.length_cons,
      convertLoop, hstep]
    rw [convertLoop_stable roll rbyte (rest.length + 1) rest.length rest 0
      (by omega) le_rfl]
    cases convertLoop roll rbyte rest.length rest 0 <;> simp
  · have hstep : convertStep roll rbyte 0 0x0D (v :: rest) =
        some (0x31 :: le32 v, rest, 0) := by
      simp [convertStep, hul]
    simp only [convert_to_vm_bytecode, convertRest, List.length_cons,
      convertLoop, hstep]
    rw [convertLoop_stable roll rbyte (rest.length + 1) rest.length rest 0
      (by omega) le_rfl]
    cases convertLoop roll rbyte rest.length rest 0 <;> simp

/-- Witness for the amended C7 at a concrete body. -/
theorem convert_operand_widths_witness :
    convert_to_vm_bytecode (fun _ => 0) (fun _ => 0) (0x41 :: 0x05 :: []) =
      (convertRest (fun _ => 0) (fun _ => 0) [] 0).map
        (fun t => 0x01 :: (le32 0x05 ++ (t ++ [0xFF]))) :=
  (convert_operand_widths (fun _ => 0) (fun _ => 0) 0x05 (by decide) []).1

/-! ## Obfuscated opcode map (`obfuscation/vm.rs`)

The per-invocation RNG is abstracted as the oracle `rng`; the draw for step
`i` of the Fisher-Yates loop is `rng i % (i + 1)`, the range contract of
`random_range(0..=i)`.
-/

/-- One Fisher-Yates swap at index `i` with drawn partner `rng i % (i+1)`. -/
def fisherStep (rng : Nat → Nat) (m : List Nat) (i : Nat) : List Nat :=
  (m.set i (m.getD (rng i % (i + 1)) 0)).set (rng i % (i + 1)) (m.getD i 0)

/-- `generate_obfuscated_opcode_map`: start from the identity table, run the
Fisher-Yates downward loop for `i = 255, ..., 1`, then force
`map[0xFF] = 0xFF`. -/
def generate_obfuscated_opcode_map (rng : Nat → Nat) : List Nat :=
  ((List.range 255).foldl (fun m k => fisherStep rng m (255 - k))
    (List.range 256)).set 255 255

/-- The adversarial draws: swap index 255 with index 0, leave the rest in
place. -/
def rngSwapTop (i : Nat) : Nat := if i = 255 then 0 else i

set_option maxRecDepth 100000 in
/-- Counterexample to C10: with draws that move 255 away from the last slot,
the forced `map[0xFF] = 0xFF` write duplicates the value 255 and drops the
value 0, so the result is not a permutation of `0..=255`. -/
theorem opcode_map_not_perm :
    ¬ (0 ∈ generate_obfuscated_opcode_map rngSwapTop) ∧
    (generate_obfuscated_opcode_map rngSwapTop).count 255 = 2 := by
  decide

/-! ## Positional LEB128 reader (`function_split.rs` loops)

`uleb_read` mirrors the recurring loop
`while pos < len { b = data[pos]; acc |= (b & 0x7F) << shift; pos += 1;
if b & 0x80 == 0 break; shift += 7 }`, returning the accumulated value and
the final position (tolerating the end of the buffer).
-/

/-- Fuelled body of `uleb_read`; the fuel is always exactly
`data.length - pos`, so exhausted fuel coincides with the end of buffer. -/
def ulebGoF : Nat → List Nat → Nat → Nat → Nat → Nat × Nat
  | 0, _, pos, _, acc => (acc, pos)
  | fuel + 1, data, pos, shift, acc =>
    if pos < data.length then
      if (data.getD pos 0) % 256 < 128 then
        (acc ||| ((data.getD pos 0 % 128) <<< shift), pos + 1)
      else
        ulebGoF fuel data (pos + 1) (shift + 7)
          (acc ||| ((data.getD pos 0 % 128) <<< shift))
    else (acc, pos)

/-- The shared LEB128 read-at-position loop of `function_split.rs`. -/
def uleb_read (data : List Nat) (pos : Nat) : Nat × Nat :=
  ulebGoF (data.length - pos) data pos 0 0

theorem ulebGoF_bounds :
    ∀ fuel (data : List Nat) pos shift acc, pos ≤ data.length →
      pos ≤ (ulebGoF fuel data pos shift acc).2 ∧
      (ulebGoF fuel data pos shift acc).2 ≤ data.length := by
  intro fuel
  induction fuel with
  | zero => intro data pos shift acc h; exact ⟨le_rfl, h⟩
  | succ f ih =>
    intro data pos shift acc h
    simp only [ulebGoF]
    split
    · split
      · rename_i h1 _
        exact ⟨by omega, by omega⟩
      · rename_i h1 _
        have := ih data (pos + 1) (shift + 7)
          (acc ||| ((data.getD pos 0 % 128) <<< shift)) (by omega)
        exact ⟨by omega, this.2⟩
    · exact ⟨le_rfl, h⟩

theorem uleb_read_bounds (data : List Nat) (pos : Nat) (h : pos ≤ data.length) :
    pos ≤ (uleb_read data pos).2 ∧ (uleb_read data pos).2 ≤ data.length :=
  ulebGoF_bounds _ data pos 0 0 h

theorem uleb_read_progress (data : List Nat) (pos : Nat)
    (h : pos < data.length) : pos < (uleb_read data pos).2 := by
  unfold uleb_read
  rw [show data.length - pos = (data.length - (pos + 1)) + 1 from by omega]
  simp only [ulebGoF]
  rw [if_pos h]
  split
  · simp
  · have := ulebGoF_bounds (data.length - (pos + 1)) data (pos + 1) (0 + 7)
      (0 ||| ((data.getD pos 0 % 128) <<< 0)) (by omega)
    omega

theorem lor_shiftLeft_eq_add (a b s : Nat) (ha : a < 2 ^ s) :
    a ||| (b <<< s) = a + b <<< s := by
  rw [Nat.shiftLeft_eq, Nat.lor_comm, Nat.mul_comm,
    ← Nat.mul_add_lt_is_or ha b]
  omega

theorem getD_eq_of_take_eq {data data2 : List Nat} {p j : Nat}
    (h : data2.take p = data.take p) (hj : j < p) :
    data2.getD j 0 = data.getD j 0 := by
  have := congrArg (fun l => l.getD j 0) h
  simpa only [List.getD_eq_getElem?_getD, List.getElem?_take_of_lt hj]
    using this

theorem le_length_of_take_eq {data data2 : List Nat} {p : Nat}
    (h : data2.take p = data.take p) (hp : p ≤ data.length) :
    p ≤ data2.length := by
  have := congrArg List.length h
  simp only [List.length_take] at this
  omega

theorem ulebGoF_write_gen :
    ∀ (v : Nat) (pre rest : List Nat) (shift acc : Nat),
      acc < 2 ^ shift →
      ulebGoF ((pre ++ (writeUleb v ++ rest)).length - pre.length)
          (pre ++ (writeUleb v ++ rest)) pre.length shift acc =
        (acc + (v <<< shift), pre.length + (writeUleb v).length) := by
  intro v
  induction v using Nat.strong_induction_on with
  | _ v ih =>
    intro pre rest shift acc hacc
    have hb : (pre ++ (writeUleb v ++ rest)).getD pre.length 0 =
        (writeUleb v ++ rest).getD 0 0 := by
      simp only [List.getD_eq_getElem?_getD]
      rw [List.getElem?_append_right (le_refl pre.length)]
      simp
    rw [writeUleb_def] at hb ⊢
    by_cases hv : v < 128
    · rw [if_pos hv] at hb ⊢
      rw [show ([v] ++ rest).getD 0 0 = v from rfl] at hb
      have hlen : (pre ++ ([v] ++ rest)).length - pre.length = rest.length + 1 := by
        simp
      rw [hlen]
      simp only [ulebGoF]
      rw [if_pos (by simp only [List.length_append, List.length_cons,
        List.length_nil]; omega)]
      rw [hb, if_pos (by omega)]
      rw [Nat.mod_eq_of_lt (by omega : v < 128)]
      rw [lor_shiftLeft_eq_add acc v shift hacc]
      simp
    · rw [if_neg hv] at hb ⊢
      rw [show (((v % 128 + 128) :: writeUleb (v / 128)) ++ rest).getD 0 0 =
        v % 128 + 128 from rfl] at hb
      have hlen : (pre ++ (((v % 128 + 128) :: writeUleb (v / 128)) ++ rest)).length -
          pre.length = (writeUleb (v / 128)).length + rest.length + 1 := by
        simp only [List.length_append, List.length_cons]
        omega
      rw [hlen]
      simp only [ulebGoF]
      rw [if_pos (by simp only [List.length_append, List.length_cons]; omega)]
      rw [hb]
      rw [if_neg (by omega)]
      have hmod : (v % 128 + 128) % 128 = v % 128 := by omega
      rw [hmod]
      rw [lor_shiftLeft_eq_add acc (v % 128) shift hacc]
      have h2 : 2 ^ (shift + 7) = 2 ^ shift * 128 := by rw [Nat.pow_add]
      have hacc2 : acc + (v % 128) <<< shift < 2 ^ (shift + 7) := by
        have h1 : (v % 128) <<< shift = (v % 128) * 2 ^ shift := Nat.shiftLeft_eq _ _
        have h3 : v % 128 < 128 := Nat.mod_lt _ (by omega)
        calc acc + (v % 128) <<< shift
            < 2 ^ shift + (v % 128) * 2 ^ shift := by omega
          _ ≤ 2 ^ shift + 127 * 2 ^ shift := by
              have : (v % 128) * 2 ^ shift ≤ 127 * 2 ^ shift :=
                Nat.mul_le_mul_right _ (by omega)
              omega
          _ = 2 ^ shift * 128 := by ring
          _ = 2 ^ (shift + 7) := h2.symm
      have hih := ih (v / 128) (by omega) (pre ++ [v % 128 + 128]) rest (shift + 7)
        (acc + (v % 128) <<< shift) hacc2
      rw [show pre ++ (((v % 128 + 128) :: writeUleb (v / 128)) ++ rest) =
          (pre ++ [v % 128 + 128]) ++ (writeUleb (v / 128) ++ rest) from by simp,
        show pre.length + 1 = (pre ++ [v % 128 + 128]).length from by simp,
        show (writeUleb (v / 128)).length + rest.length =
          ((pre ++ [v % 128 + 128]) ++ (writeUleb (v / 128) ++ rest)).length -
            (pre ++ [v % 128 + 128]).length from by
          simp only [List.length_append, List.length_cons, List.length_nil]
          omega,
        hih]
      simp only [Prod.mk.injEq]
      constructor
      · rw [Nat.shiftLeft_eq, Nat.shiftLeft_eq, Nat.shiftLeft_eq, h2]
        have hr : v % 128 * 2 ^ shift + v / 128 * (2 ^ shift * 128) =
            (v % 128 + 128 * (v / 128)) * 2 ^ shift := by ring
        rw [Nat.add_assoc, hr, Nat.mod_add_div v 128]
      · simp only [List.length_append, List.length_cons, List.length_nil]
        omega

theorem uleb_read_write (v : Nat) (rest : List Nat) :
    uleb_read (writeUleb v ++ rest) 0 = (v, (writeUleb v).length) := by
  have h := ulebGoF_write_gen v [] rest 0 0 (by omega)
  simp only [List.nil_append, List.length_nil, Nat.sub_zero, Nat.zero_add,
    Nat.shiftLeft_zero] at h
  unfold uleb_read
  rw [Nat.sub_zero]
  exact h

theorem ulebGoF_stable_take :
    ∀ (n : Nat) (data data2 : List Nat) (pos shift acc v p : Nat),
      n = data.length - pos →
      ulebGoF n data pos shift acc = (v, p) → p < data.length →
      data2.take p = data.take p →
      ulebGoF (data2.length - pos) data2 pos shift acc = (v, p) := by
  intro n
  induction n with
  | zero =>
    intro data data2 pos shift acc v p hn h hp _
    simp only [ulebGoF] at h
    cases h
    omega
  | succ m ih =>
    intro data data2 pos shift acc v p hn h hp htake
    have hposlt : pos < data.length := by omega
    have hple : p ≤ data2.length :=
      le_length_of_take_eq htake (by omega)
    simp only [ulebGoF] at h
    rw [if_pos hposlt] at h
    have hposp : pos < p := by
      split at h
      · cases h; omega
      · have hbd := ulebGoF_bounds m data (pos + 1) (shift + 7)
          (acc ||| ((data.getD pos 0 % 128) <<< shift)) (by omega)
        rw [h] at hbd
        omega
    have hbyte : data2.getD pos 0 = data.getD pos 0 :=
      getD_eq_of_take_eq htake hposp
    rw [show data2.length - pos = (data2.length - (pos + 1)) + 1 from by omega]
    simp only [ulebGoF]
    rw [if_pos (by omega), hbyte]
    split at h
    · rename_i hclear
      rw [if_pos hclear]
      exact h
    · rename_i hclear
      rw [if_neg hclear]
      exact ih data data2 (pos + 1) (shift + 7)
        (acc ||| ((data.getD pos 0 % 128) <<< shift)) v p (by omega) h hp htake

theorem uleb_read_stable_take (data data2 : List Nat) (v p : Nat)
    (h : uleb_read data 0 = (v, p)) (hp : p < data.length)
    (htake : data2.take p = data.take p) :
    uleb_read data2 0 = (v, p) := by
  unfold uleb_read at h ⊢
  simpa using ulebGoF_stable_take (data.length - 0) data data2 0 0 0 v p rfl h hp htake

/-! ## Function splitting pass (`obfuscation/function_split.rs`)

`get_exported_functions`, `count_funcs`, `find_large_functions`,
`split_function` and `split_large_functions`.  Rust slice panics and
`anyhow` errors are both modelled as `none`; `u32` casts at `write_leb128`
call sites keep their `% 2^32` truncation.
-/

/-- Skip loop of `get_exported_functions` for non-function exports:
`while pos < len && data[pos] & 0x80 != 0 { pos += 1 }`. -/
def expSkipHighF : Nat → List Nat → Nat → Nat
  | 0, _, pos => pos
  | f + 1, data, pos =>
    if pos < data.length ∧ 128 ≤ data.getD pos 0 % 256 then
      expSkipHighF f data (pos + 1)
    else pos

/-- Per-entry loop of `get_exported_functions`: the fuel is the declared
export count; each entry reads a name length, skips the name, reads the
export kind byte, and records the function index of kind-0 exports. -/
def exportIterF : Nat → List Nat → Nat → List Nat → List Nat
  | 0, _, _, acc => acc
  | n + 1, data, pos, acc =>
    if pos < data.length then
      let r := uleb_read data pos
      let pos1 := r.2 + r.1
      if pos1 < data.length then
        let ty := data.getD pos1 0
        let pos2 := pos1 + 1
        if ty = 0 ∧ pos2 < data.length then
          let rf := uleb_read data pos2
          exportIterF n data rf.2 (acc ++ [rf.1])
        else
          let pos3 := expSkipHighF (data.length - pos2) data pos2
          exportIterF n data (if pos3 < data.length then pos3 + 1 else pos3) acc
      else exportIterF n data pos1 acc
    else acc

/-- `get_exported_functions`: collect function indices of kind-0 exports
from every Export section (the `HashSet` is modelled as a list, only
membership is ever used). -/
def get_exported_functions (m : WasmModule) : List Nat :=
  m.sections.foldl
    (fun acc s =>
      if s.section_type = SectionType.exports then
        let r := uleb_read s.data 0
        exportIterF r.1 s.data r.2 acc
      else acc) []

/-- `count_funcs`: leading LEB count of the first Code section (0 when the
section is missing or empty). -/
def count_funcs (m : WasmModule) : Nat :=
  match m.sections.find? (fun s => decide (s.section_type = SectionType.code)) with
  | none => 0
  | some cs => if cs.data = [] then 0 else (uleb_read cs.data 0).1

/-- Leading LEB count of the first Function section: the quantity read (and
rewritten) by `split_function`'s function-section update, and the
"Function section count" of the splitting invariant. -/
def function_section_count (m : WasmModule) : Nat :=
  match m.sections.find? (fun s => decide (s.section_type = SectionType.function)) with
  | none => 0
  | some fs => (uleb_read fs.data 0).1

/-- Body-locating loop of `find_large_functions`: from `pos` collect
`(body_start, body_size)` pairs, hopping `size` bytes after each size
field, until the end of the section data. -/
def bodiesLoopF : Nat → List Nat → Nat → List (Nat × Nat)
  | 0, _, _ => []
  | fuel + 1, data, pos =>
    if pos < data.length then
      let r := uleb_read data pos
      (r.2, r.1) :: bodiesLoopF fuel data (r.2 + r.1)
    else []

/-- Selection loop of `find_large_functions`: keep indices of entries of
size > 100 that are not exported and whose body has at least one safe
split point; an out-of-range body slice is the Rust panic, i.e. `none`. -/
def largeScanF (data : List Nat) :
    List (Nat × Nat) → Nat → List Nat → Option (List Nat)
  | [], _, _ => some []
  | (p, s) :: rest, idx, exported =>
    if 100 < s then
      if idx ∈ exported then largeScanF data rest (idx + 1) exported
      else if data.length < p + s then none
      else if 1 ≤ (find_safe_split_points ((data.take (p + s)).drop p)).length then
        (largeScanF data rest (idx + 1) exported).map (fun t => idx :: t)
      else largeScanF data rest (idx + 1) exported
    else largeScanF data rest (idx + 1) exported

/-- `find_large_functions`.  The walk starts at position 1, skipping a
single count byte regardless of the count's actual LEB width. -/
def find_large_functions (m : WasmModule) (exported : List Nat) :
    Option (List Nat) :=
  match m.sections.find? (fun s => decide (s.section_type = SectionType.code)) with
  | none => some []
  | some cs => largeScanF cs.data (bodiesLoopF cs.data.length cs.data 1) 0 exported

/-- Section-index scan of `split_function`: enumerate the sections, keeping
the LAST Function and Code indices (later sections overwrite earlier
ones). -/
def sectionIdxLoop : List Section → Nat → Option Nat × Option Nat →
    Option Nat × Option Nat
  | [], _, st => st
  | s :: rest, i, st =>
    sectionIdxLoop rest (i + 1)
      (if s.section_type = SectionType.function then (some i, st.2)
       else if s.section_type = SectionType.code then (st.1, some i)
       else st)

/-- Skip one LEB128 entry, erroring at end of data (the inner `loop` of
`split_function`'s type-index walk). -/
def skipEntryF : Nat → List Nat → Nat → Option Nat
  | 0, _, _ => none
  | f + 1, data, pos =>
    if pos < data.length then
      if data.getD pos 0 % 256 < 128 then some (pos + 1)
      else skipEntryF f data (pos + 1)
    else none

/-- Skip `n` type-index entries; the outer `while` exits silently when the
data runs out before `n` entries were skipped. -/
def skipTypes : Nat → List Nat → Nat → Option Nat
  | 0, _, pos => some pos
  | n + 1, data, pos =>
    if pos < data.length then
      match skipEntryF (data.length - pos) data pos with
      | none => none
      | some q => skipTypes n data q
    else some pos

/-- Outcome of `split_function`'s target-locating loop over the code
section: target entry found (entry start, body start, body end, body
bytes), loop fell through with the target index current (body defaults to
empty), or index never reached. -/
inductive FindRes where
  | found (fs bs be : Nat) (body : List Nat)
  | fell (fs : Nat)
  | err

/-- Target-locating loop of `split_function`:
`while current_func_idx < num_funcs && i < len`, reading a size field and
hopping each body, breaking at the target index. -/
def findLoopF : Nat → List Nat → Nat → Nat → Nat → Nat → Nat → FindRes
  | 0, _, _, funcIdx, current, _, fs =>
    if current = funcIdx then .fell fs else .err
  | fuel + 1, data, numFuncs, funcIdx, current, i, fs =>
    if current < numFuncs ∧ i < data.length then
      let r := uleb_read data i
      if current = funcIdx then
        if data.length < r.2 + r.1 then .err
        else .found i r.2 (r.2 + r.1) ((data.take (r.2 + r.1)).drop r.2)
      else findLoopF fuel data numFuncs funcIdx (current + 1) (r.2 + r.1) i
    else if current = funcIdx then .fell fs else .err

/-- One intermediate sub-function body: slice of the original body, a
`call` (0x10) to the next sub-function, a closing `end` (0x0B) unless
already present, an empty local-declaration byte, all behind a LEB size. -/
def subPiece (body : List Nat) (startPos endPos callIdx : Nat) : List Nat :=
  let sub1 := ((body.take endPos).drop startPos) ++ [0x10] ++
    writeUleb (callIdx % 4294967296)
  let sub2 := if sub1.getLast? = some 0x0B then sub1 else sub1 ++ [0x0B]
  let full := 0x00 :: sub2
  writeUleb (full.length % 4294967296) ++ full

/-- Build the intermediate sub-function bodies for each split point
(`none` on a Rust slice panic: an inverted or out-of-range slice). -/
def midPiecesF (body : List Nat) (numFuncs : Nat) :
    List Nat → Nat → Nat → Option (List Nat)
  | [], _, _ => some []
  | p :: rest, i, startPos =>
    if startPos ≤ p ∧ p ≤ body.length then
      (midPiecesF body numFuncs rest (i + 1) p).map
        (fun t => subPiece body startPos p (numFuncs + i + 1) ++ t)
    else none

/-- The final sub-function body: the tail of the original body from the
last split point, closed and framed like the intermediate pieces. -/
def lastPiece (body : List Nat) (startPos : Nat) : List Nat :=
  let lb := body.drop startPos
  let lb2 := if lb.getLast? = some 0x0B then lb else lb ++ [0x0B]
  let full := 0x00 :: lb2
  writeUleb (full.length % 4294967296) ++ full

/-- Steps 3-6 of `split_function`: find split points (returning the module
unchanged when there are none), build the sub-function bodies and the
replacement main body, then rewrite the Function and Code sections with
counts increased by the number of sub-functions. -/
def buildSplit (m : WasmModule) (fidx cidx : Nat) (fdata cdata : List Nat)
    (ftype numFuncs funcStart bodyEnd : Nat) (body : List Nat) :
    Option WasmModule :=
  let points := find_safe_split_points body
  if points = [] then some m
  else
    let numSub := points.length + 1
    match midPiecesF body numFuncs points 0 0 with
    | none => none
    | some mids =>
      let subBytes := mids ++ lastPiece body (points.getLastD 0)
      let newMain := 0x00 :: 0x10 :: (writeUleb (numFuncs % 4294967296) ++ [0x0B])
      let completeMain := writeUleb (newMain.length % 4294967296) ++ newMain
      let typeExt := (List.replicate numSub (writeUleb (ftype % 4294967296))).flatten
      let rt := uleb_read fdata 0
      let newFdata := writeUleb ((rt.1 + numSub) % 4294967296) ++
        ((fdata ++ typeExt).drop rt.2)
      let spliced := cdata.take funcStart ++ completeMain ++ cdata.drop bodyEnd
      let cdata2 := spliced ++ subBytes
      let rc2 := uleb_read cdata2 0
      let newCdata := writeUleb ((rc2.1 + numSub) % 4294967296) ++
        cdata2.drop rc2.2
      let dflt : Section := ⟨SectionType.custom, none, []⟩
      let fsecOld := m.sections.getD fidx dflt
      let csecOld := m.sections.getD cidx dflt
      some ⟨m.version,
        (m.sections.set fidx ⟨fsecOld.section_type, fsecOld.name, newFdata⟩).set
          cidx ⟨csecOld.section_type, csecOld.name, newCdata⟩⟩

/-- `split_function`: locate the last Function and Code sections, read the
target function's type index and body, then split at safe points. -/
def split_function (m : WasmModule) (funcIdx : Nat) : Option WasmModule :=
  match sectionIdxLoop m.sections 0 (none, none) with
  | (some fidx, some cidx) =>
    let dflt : Section := ⟨SectionType.custom, none, []⟩
    let fdata := (m.sections.getD fidx dflt).data
    let rt := uleb_read fdata 0
    if funcIdx < rt.1 then
      match skipTypes funcIdx fdata rt.2 with
      | none => none
      | some posT =>
        if posT < fdata.length then
          let ftype := fdata.getD posT 0
          let cdata := (m.sections.getD cidx dflt).data
          let rc := uleb_read cdata 0
          if funcIdx < rc.1 then
            match findLoopF (funcIdx + 1) cdata rc.1 funcIdx 0 rc.2 0 with
            | .err => none
            | .fell fs => buildSplit m fidx cidx fdata cdata ftype rc.1 fs 0 []
            | .found fs _bs be body =>
              buildSplit m fidx cidx fdata cdata ftype rc.1 fs be body
          else none
        else none
    else none
  | _ => none

/-- The splitting fold of `split_large_functions` over the large-function
indices. -/
def passFoldF : List Nat → WasmModule → Option WasmModule
  | [], m => some m
  | idx :: rest, m =>
    match split_function m idx with
    | none => none
    | some m2 => passFoldF rest m2

/-- `split_large_functions`: the whole pass. -/
def split_large_functions (m : WasmModule) : Option WasmModule :=
  let exported := get_exported_functions m
  match find_large_functions m exported with
  | none => none
  | some large => if large = [] then some m else passFoldF large m

/-- A list of sections containing neither a Function nor a Code section. -/
def NotFC (l : List Section) : Prop :=
  ∀ s ∈ l, s.section_type ≠ SectionType.function ∧
    s.section_type ≠ SectionType.code

theorem find?_append_of_none {α : Type} {p : α → Bool} {l1 l2 : List α}
    (h : ∀ s ∈ l1, p s = false) :
    List.find? p (l1 ++ l2) = List.find? p l2 := by
  induction l1 with
  | nil => rfl
  | cons a t ih =>
    rw [List.cons_append,
      List.find?_cons_of_neg _ (by rw [h a (by simp)]; simp)]
    exact ih (fun s hs => h s (by simp [hs]))

theorem sectionIdxLoop_append (l1 l2 : List Section) (i : Nat)
    (st : Option Nat × Option Nat) :
    sectionIdxLoop (l1 ++ l2) i st =
      sectionIdxLoop l2 (i + l1.length) (sectionIdxLoop l1 i st) := by
  induction l1 generalizing i st with
  | nil => simp [sectionIdxLoop]
  | cons a t ih =>
    simp only [List.cons_append, sectionIdxLoop, List.append_eq]
    rw [ih]
    simp only [List.length_cons]
    rw [show i + (t.length + 1) = i + 1 + t.length from by omega]

theorem sectionIdxLoop_skip (l : List Section) (i : Nat)
    (st : Option Nat × Option Nat) (h : NotFC l) :
    sectionIdxLoop l i st = st := by
  induction l generalizing i with
  | nil => rfl
  | cons a t ih =>
    simp only [sectionIdxLoop]
    rw [if_neg (h a (by simp)).1, if_neg (h a (by simp)).2]
    exact ih (i + 1) (fun s hs => h s (by simp [hs]))

theorem sectionIdxLoop_shape (pre mid post : List Section) (fsec csec : Section)
    (hf : fsec.section_type = SectionType.function)
    (hc : csec.section_type = SectionType.code)
    (hpre : NotFC pre) (hmid : NotFC mid) (hpost : NotFC post) :
    sectionIdxLoop (pre ++ fsec :: (mid ++ csec :: post)) 0 (none, none) =
      (some pre.length, some (pre.length + 1 + mid.length)) := by
  rw [sectionIdxLoop_append, sectionIdxLoop_skip pre 0 _ hpre]
  simp only [sectionIdxLoop]
  rw [if_pos hf, sectionIdxLoop_append, sectionIdxLoop_skip mid _ _ hmid]
  simp only [sectionIdxLoop]
  rw [if_neg (by rw [hc]; intro hcontra; cases hcontra), if_pos hc,
    sectionIdxLoop_skip post _ _ hpost]
  simp only [Nat.zero_add]

theorem find?_shape_function (pre mid post : List Section) (fsec csec : Section)
    (hf : fsec.section_type = SectionType.function)
    (hpre : NotFC pre) :
    List.find? (fun s => decide (s.section_type = SectionType.function))
        (pre ++ fsec :: (mid ++ csec :: post)) = some fsec := by
  rw [find?_append_of_none (fun s hs => by
    simp only [decide_eq_false_iff_not]
    exact (hpre s hs).1)]
  exact List.find?_cons_of_pos _ (by simp [hf])

theorem find?_shape_code (pre mid post : List Section) (fsec csec : Section)
    (hf : fsec.section_type = SectionType.function)
    (hc : csec.section_type = SectionType.code)
    (hpre : NotFC pre) (hmid : NotFC mid) :
    List.find? (fun s => decide (s.section_type = SectionType.code))
        (pre ++ fsec :: (mid ++ csec :: post)) = some csec := by
  rw [find?_append_of_none (fun s hs => by
    simp only [decide_eq_false_iff_not]
    exact (hpre s hs).2)]
  rw [List.find?_cons_of_neg _ (by rw [hf]; intro hcontra; simp at hcontra)]
  rw [find?_append_of_none (fun s hs => by
    simp only [decide_eq_false_iff_not]
    exact (hmid s hs).2)]
  exact List.find?_cons_of_pos _ (by simp [hc])

theorem getD_shape_first {α : Type} (pre rest : List α) (x d : α) :
    (pre ++ x :: rest).getD pre.length d = x := by
  simp only [List.getD_eq_getElem?_getD]
  rw [List.getElem?_append_right (le_refl pre.length)]
  simp

theorem getD_shape_second (pre mid post : List Section) (x y : Section)
    (d : Section) :
    (pre ++ x :: (mid ++ y :: post)).getD (pre.length + 1 + mid.length) d = y := by
  simp only [List.getD_eq_getElem?_getD]
  rw [List.getElem?_append_right (by omega : pre.length ≤ pre.length + 1 + mid.length),
    show pre.length + 1 + mid.length - pre.length = mid.length + 1 from by omega,
    List.getElem?_cons_succ,
    List.getElem?_append_right (le_refl mid.length)]
  simp

theorem set_shape_first (pre mid post : List Section) (fsec csec x : Section) :
    (pre ++ fsec :: (mid ++ csec :: post)).set pre.length x =
      pre ++ x :: (mid ++ csec :: post) := by
  rw [List.set_append_right _ _ (le_refl pre.length)]
  simp

theorem set_shape_second (pre mid post : List Section) (fsec csec x : Section) :
    (pre ++ fsec :: (mid ++ csec :: post)).set (pre.length + 1 + mid.length) x =
      pre ++ fsec :: (mid ++ x :: post) := by
  rw [List.set_append_right _ _ (by omega : pre.length ≤ pre.length + 1 + mid.length),
    show pre.length + 1 + mid.length - pre.length = mid.length + 1 from by omega]
  congr 1
  show (fsec :: (mid ++ csec :: post)).set (mid.length + 1) x = _
  rw [List.set_cons_succ, List.set_append_right _ _ (le_refl mid.length)]
  simp

theorem findLoopF_found_ge :
    ∀ (fuel : Nat) (data : List Nat) (numF fi c i fs q p e : Nat)
      (body : List Nat),
      findLoopF fuel data numF fi c i fs = .found q p e body →
      i ≤ q ∧ q < data.length := by
  intro fuel
  induction fuel with
  | zero =>
    intro data numF fi c i fs q p e body h
    simp only [findLoopF] at h
    split at h <;> cases h
  | succ f ih =>
    intro data numF fi c i fs q p e body h
    simp only [findLoopF] at h
    split at h
    · rename_i hcond
      split at h
      · split at h
        · cases h
        · cases h
          exact ⟨le_refl _, hcond.2⟩
      · have := ih data numF fi (c + 1)
          ((uleb_read data i).2 + (uleb_read data i).1) i q p e body h
        have hprog := uleb_read_progress data i hcond.2
        omega
    · split at h <;> cases h

theorem buildSplit_nil (m : WasmModule) (fidx cidx : Nat) (fd cd : List Nat)
    (ft nf fs be : Nat) : buildSplit m fidx cidx fd cd ft nf fs be [] = some m :=
  rfl

theorem function_section_count_shape (pre mid post : List Section)
    (nm : Option (List Nat)) (dt : List Nat) (csec : Section) (ver : Nat)
    (hpre : NotFC pre) :
    function_section_count
        ⟨ver, pre ++ ⟨SectionType.function, nm, dt⟩ :: (mid ++ csec :: post)⟩ =
      (uleb_read dt 0).1 := by
  unfold function_section_count
  rw [find?_shape_function pre mid post _ csec rfl hpre]

theorem count_funcs_shape (pre mid post : List Section) (fsec : Section)
    (nm : Option (List Nat)) (dt : List Nat) (ver : Nat)
    (hf : fsec.section_type = SectionType.function)
    (hpre : NotFC pre) (hmid : NotFC mid) (hne : dt ≠ []) :
    count_funcs
        ⟨ver, pre ++ fsec :: (mid ++ ⟨SectionType.code, nm, dt⟩ :: post)⟩ =
      (uleb_read dt 0).1 := by
  unfold count_funcs
  rw [find?_shape_code pre mid post fsec _ hf rfl hpre hmid]
  show (if dt = [] then 0 else (uleb_read dt 0).1) = _
  rw [if_neg hne]

theorem buildSplit_counts
    (pre mid post : List Section) (fsec csec : Section) (ver : Nat)
    (ftype numFuncs funcStart bodyEnd : Nat) (body : List Nat)
    (M' : WasmModule)
    (hf : fsec.section_type = SectionType.function)
    (hc : csec.section_type = SectionType.code)
    (hpre : NotFC pre) (hmid : NotFC mid)
    (hle : (uleb_read csec.data 0).2 ≤ funcStart)
    (hlt : funcStart < csec.data.length)
    (h : buildSplit ⟨ver, pre ++ fsec :: (mid ++ csec :: post)⟩ pre.length
        (pre.length + 1 + mid.length) fsec.data csec.data ftype numFuncs
        funcStart bodyEnd body = some M') :
    (M' = ⟨ver, pre ++ fsec :: (mid ++ csec :: post)⟩ ∧
        find_safe_split_points body = []) ∨
      ∃ (fsec' csec' : Section) (d : Nat),
        M' = ⟨ver, pre ++ fsec' :: (mid ++ csec' :: post)⟩ ∧
        fsec'.section_type = SectionType.function ∧
        csec'.section_type = SectionType.code ∧ 2 ≤ d ∧
        function_section_count M' =
          (function_section_count ⟨ver, pre ++ fsec :: (mid ++ csec :: post)⟩ + d)
            % 4294967296 ∧
        count_funcs M' =
          (count_funcs ⟨ver, pre ++ fsec :: (mid ++ csec :: post)⟩ + d)
            % 4294967296 := by
  obtain ⟨fty, fnm, fdt⟩ := fsec
  obtain ⟨cty, cnm, cdt⟩ := csec
  have hf' : fty = SectionType.function := hf
  have hc' : cty = SectionType.code := hc
  subst hf'
  subst hc'
  by_cases hpts : find_safe_split_points body = []
  · left
    simp only [buildSplit] at h
    rw [if_pos hpts] at h
    exact ⟨(Option.some.inj h).symm, hpts⟩
  · right
    simp only [buildSplit] at h
    rw [if_neg hpts] at h
    cases hmp : midPiecesF body numFuncs (find_safe_split_points body) 0 0 with
    | none =>
      rw [hmp] at h
      exact Option.noConfusion h
    | some mids =>
      rw [hmp] at h
      simp only [getD_shape_first, getD_shape_second] at h
      rw [set_shape_first, set_shape_second] at h
      have hM' := (Option.some.inj h).symm
      subst hM'
      have hlen1 : 0 < (find_safe_split_points body).length :=
        List.length_pos.mpr hpts
      have hle' : (uleb_read cdt 0).2 ≤ funcStart := hle
      have hlt' : funcStart < cdt.length := hlt
      have hi0 : (uleb_read cdt 0).2 < cdt.length := by omega
      clear h hf hc hle hlt
      generalize hcd2 :
        List.take funcStart cdt ++
            (writeUleb ((0 :: 16 :: (writeUleb (numFuncs % 4294967296) ++ [11])).length
                % 4294967296) ++
              0 :: 16 :: (writeUleb (numFuncs % 4294967296) ++ [11])) ++
          List.drop bodyEnd cdt ++
          (mids ++ lastPiece body ((find_safe_split_points body).getLastD 0)) = cdata2
      have hstab : uleb_read cdata2 0 = ((uleb_read cdt 0).1, (uleb_read cdt 0).2) := by
        apply uleb_read_stable_take cdt cdata2 _ _ Prod.mk.eta.symm hi0
        rw [← hcd2]
        rw [List.take_append_of_le_length (by
            simp only [List.length_append, List.length_take, List.length_drop,
              List.length_cons]
            omega),
          List.take_append_of_le_length (by
            simp only [List.length_append, List.length_take, List.length_cons]
            omega),
          List.take_append_of_le_length (by
            simp only [List.length_take]
            omega),
          List.take_take, Nat.min_eq_left hle']
      refine ⟨⟨SectionType.function, fnm, _⟩, ⟨SectionType.code, cnm, _⟩,
        (find_safe_split_points body).length + 1, rfl, rfl, rfl, by omega, ?_, ?_⟩
      · rw [function_section_count_shape pre mid post fnm _ _ ver hpre,
          function_section_count_shape pre mid post fnm fdt _ ver hpre,
          uleb_read_write]
      · rw [count_funcs_shape pre mid post _ cnm _ ver rfl hpre hmid
            (fun hh => writeUleb_ne_nil _ (List.append_eq_nil.mp hh).1),
          count_funcs_shape pre mid post _ cnm cdt ver rfl hpre hmid
            (by intro hh; rw [hh] at hlt'; simp at hlt'),
          uleb_read_write, hstab]

theorem split_function_step
    (pre mid post : List Section) (fsec csec : Section) (ver funcIdx : Nat)
    (M M' : WasmModule)
    (hM : M = ⟨ver, pre ++ fsec :: (mid ++ csec :: post)⟩)
    (hf : fsec.section_type = SectionType.function)
    (hc : csec.section_type = SectionType.code)
    (hpre : NotFC pre) (hmid : NotFC mid) (hpost : NotFC post)
    (h : split_function M funcIdx = some M') :
    M' = M ∨
      ∃ (fsec' csec' : Section) (d : Nat),
        M' = ⟨ver, pre ++ fsec' :: (mid ++ csec' :: post)⟩ ∧
        fsec'.section_type = SectionType.function ∧
        csec'.section_type = SectionType.code ∧ 2 ≤ d ∧
        function_section_count M' = (function_section_count M + d) % 4294967296 ∧
        count_funcs M' = (count_funcs M + d) % 4294967296 := by
  subst hM
  have hidx := sectionIdxLoop_shape pre mid post fsec csec hf hc hpre hmid hpost
  simp only [split_function, hidx, getD_shape_first, getD_shape_second] at h
  split at h
  case isFalse => exact Option.noConfusion h
  case isTrue h1 =>
    cases hsk : skipTypes funcIdx fsec.data (uleb_read fsec.data 0).2 with
    | none =>
      rw [hsk] at h
      exact Option.noConfusion h
    | some posT =>
      simp only [hsk] at h
      split at h
      case isFalse => exact Option.noConfusion h
      case isTrue h2 =>
        split at h
        case isFalse => exact Option.noConfusion h
        case isTrue h3 =>
          cases hfl : findLoopF (funcIdx + 1) csec.data
              (uleb_read csec.data 0).1 funcIdx 0 (uleb_read csec.data 0).2 0 with
          | err =>
            rw [hfl] at h
            exact Option.noConfusion h
          | fell fs =>
            simp only [hfl] at h
            rw [buildSplit_nil] at h
            exact Or.inl (Option.some.inj h).symm
          | found fs bs be body =>
            simp only [hfl] at h
            have hge := findLoopF_found_ge (funcIdx + 1) csec.data
              (uleb_read csec.data 0).1 funcIdx 0 (uleb_read csec.data 0).2 0
              fs bs be body hfl
            have hbc := buildSplit_counts pre mid post fsec csec ver
              (fsec.data.getD posT 0) (uleb_read csec.data 0).1 fs be body M'
              hf hc hpre hmid hge.1 hge.2 h
            cases hbc with
            | inl hl => exact Or.inl hl.1
            | inr hr => exact Or.inr hr

theorem passFold_counts
    (pre mid post : List Section) (ver : Nat) (hpre : NotFC pre)
    (hmid : NotFC mid) (hpost : NotFC post) :
    ∀ (large : List Nat) (fsec csec : Section) (M M' : WasmModule),
      M = ⟨ver, pre ++ fsec :: (mid ++ csec :: post)⟩ →
      fsec.section_type = SectionType.function →
      csec.section_type = SectionType.code →
      passFoldF large M = some M' →
      M' = M ∨
        ∃ d, 2 ≤ d ∧
          function_section_count M' = (function_section_count M + d) % 4294967296 ∧
          count_funcs M' = (count_funcs M + d) % 4294967296 := by
  intro large
  induction large with
  | nil =>
    intro fsec csec M M' hM hf hc h
    exact Or.inl (Option.some.inj h).symm
  | cons idx rest ih =>
    intro fsec csec M M' hM hf hc h
    simp only [passFoldF] at h
    cases hsf : split_function M idx with
    | none =>
      rw [hsf] at h
      exact Option.noConfusion h
    | some M1 =>
      rw [hsf] at h
      have hstep := split_function_step pre mid post fsec csec ver idx M M1
        hM hf hc hpre hmid hpost hsf
      cases hstep with
      | inl heq =>
        exact ih fsec csec M M' hM hf hc (by rw [← heq]; exact h)
      | inr hex =>
        obtain ⟨fsec', csec', d1, hM1, hf', hc', hd1, hfsc1, hcf1⟩ := hex
        have hrest := ih fsec' csec' M1 M' hM1 hf' hc' h
        cases hrest with
        | inl heq =>
          subst heq
          exact Or.inr ⟨d1, hd1, hfsc1, hcf1⟩
        | inr hex2 =>
          obtain ⟨d2, hd2, hfsc2, hcf2⟩ := hex2
          refine Or.inr ⟨d1 + d2, by omega, ?_, ?_⟩
          · rw [hfsc2, hfsc1, Nat.mod_add_mod, Nat.add_assoc]
          · rw [hcf2, hcf1, Nat.mod_add_mod, Nat.add_assoc]

theorem uleb_read_single (data : List Nat) (h0 : data ≠ [])
    (hb : data.getD 0 0 < 128) :
    uleb_read data 0 = (data.getD 0 0, 1) := by
  have hlen : 0 < data.length := List.length_pos.mpr h0
  unfold uleb_read
  rw [show data.length - 0 = (data.length - 1) + 1 from by omega]
  simp only [ulebGoF]
  rw [if_pos hlen, if_pos (by omega : data.getD 0 0 % 256 < 128)]
  rw [Nat.shiftLeft_zero, Nat.zero_or, Nat.mod_eq_of_lt hb]

theorem largeScanF_mem (data : List Nat) :
    ∀ (entries : List (Nat × Nat)) (k : Nat) (exported L : List Nat),
      largeScanF data entries k exported = some L → ∀ idx, idx ∈ L →
      ∃ j p s, entries[j]? = some (p, s) ∧ idx = k + j ∧ 100 < s ∧
        p + s ≤ data.length ∧
        find_safe_split_points ((data.take (p + s)).drop p) ≠ [] := by
  intro entries
  induction entries with
  | nil =>
    intro k exported L h idx hidx
    simp only [largeScanF] at h
    obtain rfl := Option.some.inj h
    simp at hidx
  | cons e rest ih =>
    obtain ⟨p0, s0⟩ := e
    intro k exported L h idx hidx
    simp only [largeScanF] at h
    split at h
    · rename_i hbig
      split at h
      · obtain ⟨j, p, s, h1, h2, h3, h4, h5⟩ := ih (k + 1) exported L h idx hidx
        exact ⟨j + 1, p, s, by simpa using h1, by omega, h3, h4, h5⟩
      · rename_i hexp
        split at h
        · exact Option.noConfusion h
        · rename_i hran
          split at h
          · rename_i hpts
            cases hin : largeScanF data rest (k + 1) exported with
            | none =>
              rw [hin] at h
              exact Option.noConfusion h
            | some t =>
              rw [hin] at h
              obtain rfl := Option.some.inj h
              rcases List.mem_cons.mp hidx with rfl | hmem
              · refine ⟨0, p0, s0, by simp, by omega, hbig, by omega, ?_⟩
                intro hcon
                rw [hcon] at hpts
                simp at hpts
              · obtain ⟨j, p, s, h1, h2, h3, h4, h5⟩ :=
                  ih (k + 1) exported t hin idx hmem
                exact ⟨j + 1, p, s, by simpa using h1, by omega, h3, h4, h5⟩
          · obtain ⟨j, p, s, h1, h2, h3, h4, h5⟩ := ih (k + 1) exported L h idx hidx
            exact ⟨j + 1, p, s, by simpa using h1, by omega, h3, h4, h5⟩
    · obtain ⟨j, p, s, h1, h2, h3, h4, h5⟩ := ih (k + 1) exported L h idx hidx
      exact ⟨j + 1, p, s, by simpa using h1, by omega, h3, h4, h5⟩

theorem bodiesLoop_findLoop (data : List Nat) :
    ∀ (fuel k c pos numF fs p s : Nat),
      (bodiesLoopF fuel data pos)[k]? = some (p, s) →
      c + k < numF → p + s ≤ data.length →
      ∃ q, findLoopF (k + 1) data numF (c + k) c pos fs =
        .found q p (p + s) ((data.take (p + s)).drop p) := by
  intro fuel
  induction fuel with
  | zero =>
    intro k c pos numF fs p s h _ _
    simp [bodiesLoopF] at h
  | succ f ih =>
    intro k c pos numF fs p s h hlt hle
    simp only [bodiesLoopF] at h
    split at h
    · rename_i hpos
      cases k with
      | zero =>
        simp only [List.getElem?_cons_zero] at h
        have hpair := Option.some.inj h
        have hp2 : (uleb_read data pos).2 = p := congrArg Prod.fst hpair
        have hp1 : (uleb_read data pos).1 = s := congrArg Prod.snd hpair
        refine ⟨pos, ?_⟩
        simp only [findLoopF]
        rw [if_pos ⟨by omega, hpos⟩, if_pos (show c = c + 0 from by omega),
          if_neg (by omega : ¬ data.length <
            (uleb_read data pos).2 + (uleb_read data pos).1)]
        rw [hp2, hp1]
      | succ kk =>
        simp only [List.getElem?_cons_succ] at h
        obtain ⟨q, hq⟩ := ih kk (c + 1)
          ((uleb_read data pos).2 + (uleb_read data pos).1) numF pos p s h
          (by omega) hle
        refine ⟨q, ?_⟩
        simp only [findLoopF]
        rw [if_pos ⟨by omega, hpos⟩,
          if_neg (by omega : ¬ c = c + (kk + 1)),
          show c + (kk + 1) = c + 1 + kk from by omega]
        exact hq
    · simp at h

theorem buildSplit_counts_pos
    (pre mid post : List Section) (fsec csec : Section) (ver : Nat)
    (ftype numFuncs funcStart bodyEnd : Nat) (body : List Nat)
    (M' : WasmModule)
    (hf : fsec.section_type = SectionType.function)
    (hc : csec.section_type = SectionType.code)
    (hpre : NotFC pre) (hmid : NotFC mid)
    (hle : (uleb_read csec.data 0).2 ≤ funcStart)
    (hlt : funcStart < csec.data.length)
    (hpts : find_safe_split_points body ≠ [])
    (h : buildSplit ⟨ver, pre ++ fsec :: (mid ++ csec :: post)⟩ pre.length
        (pre.length + 1 + mid.length) fsec.data csec.data ftype numFuncs
        funcStart bodyEnd body = some M') :
    ∃ (fsec' csec' : Section) (d : Nat),
      M' = ⟨ver, pre ++ fsec' :: (mid ++ csec' :: post)⟩ ∧
      fsec'.section_type = SectionType.function ∧
      csec'.section_type = SectionType.code ∧ 2 ≤ d ∧
      function_section_count M' =
        (function_section_count ⟨ver, pre ++ fsec :: (mid ++ csec :: post)⟩ + d)
          % 4294967296 ∧
      count_funcs M' =
        (count_funcs ⟨ver, pre ++ fsec :: (mid ++ csec :: post)⟩ + d)
          % 4294967296 := by
  have hbc := buildSplit_counts pre mid post fsec csec ver ftype numFuncs
    funcStart bodyEnd body M' hf hc hpre hmid hle hlt h
  cases hbc with
  | inl hl => exact absurd hl.2 hpts
  | inr hr => exact hr

theorem split_function_growth
    (pre mid post : List Section) (fsec csec : Section) (ver idx1 : Nat)
    (M M1 : WasmModule) (p s : Nat)
    (hM : M = ⟨ver, pre ++ fsec :: (mid ++ csec :: post)⟩)
    (hf : fsec.section_type = SectionType.function)
    (hc : csec.section_type = SectionType.code)
    (hpre : NotFC pre) (hmid : NotFC mid) (hpost : NotFC post)
    (hbyte : csec.data.getD 0 0 < 128)
    (hne0 : csec.data ≠ [])
    (hj : (bodiesLoopF csec.data.length csec.data 1)[idx1]? = some (p, s))
    (hps : p + s ≤ csec.data.length)
    (hpts : find_safe_split_points ((csec.data.take (p + s)).drop p) ≠ [])
    (h : split_function M idx1 = some M1) :
    ∃ (fsec' csec' : Section) (d : Nat),
      M1 = ⟨ver, pre ++ fsec' :: (mid ++ csec' :: post)⟩ ∧
      fsec'.section_type = SectionType.function ∧
      csec'.section_type = SectionType.code ∧ 2 ≤ d ∧
      function_section_count M1 = (function_section_count M + d) % 4294967296 ∧
      count_funcs M1 = (count_funcs M + d) % 4294967296 := by
  subst hM
  have hidx := sectionIdxLoop_shape pre mid post fsec csec hf hc hpre hmid hpost
  have hrc : uleb_read csec.data 0 = (csec.data.getD 0 0, 1) :=
    uleb_read_single csec.data hne0 hbyte
  simp only [split_function, hidx, getD_shape_first, getD_shape_second, hrc] at h
  split at h
  case isFalse => exact Option.noConfusion h
  case isTrue h1 =>
    cases hsk : skipTypes idx1 fsec.data (uleb_read fsec.data 0).2 with
    | none =>
      rw [hsk] at h
      exact Option.noConfusion h
    | some posT =>
      simp only [hsk] at h
      split at h
      case isFalse => exact Option.noConfusion h
      case isTrue h2 =>
        split at h
        case isFalse => exact Option.noConfusion h
        case isTrue h3 =>
          obtain ⟨q, hq⟩ := bodiesLoop_findLoop csec.data csec.data.length
            idx1 0 1 (csec.data.getD 0 0) 0 p s hj (by omega) hps
          rw [Nat.zero_add] at hq
          simp only [hq] at h
          have hge := findLoopF_found_ge (idx1 + 1) csec.data
            (csec.data.getD 0 0) idx1 0 1 0 q p (p + s) _ hq
          exact buildSplit_counts_pos pre mid post fsec csec ver
            (fsec.data.getD posT 0) (csec.data.getD 0 0) q (p + s) _ M1
            hf hc hpre hmid (by rw [hrc]; exact hge.1) hge.2 hpts h

/-- A module whose Function section declares 2 functions while its Code
section declares (and contains) a single tiny body: nothing is large, so
the splitting pass returns it unchanged, with the two counts still
unequal. -/
def M0 : WasmModule :=
  ⟨1, [⟨SectionType.function, none, [2, 0, 0]⟩,
       ⟨SectionType.code, none, [1, 2, 0, 0x0B]⟩]⟩

/-- C5 counterexample.  `split_large_functions` succeeds on `M0` returning
it unchanged, yet the Function section's leading count (2) differs from the
Code section's leading count (1): the pass never establishes the equality,
it only preserves whatever relation already holds. -/
theorem split_pass_counts_unequal :
    split_large_functions M0 = some M0 ∧
    function_section_count M0 ≠ count_funcs M0 := by
  decide

/-- C5 amended.  Over a module with exactly one Function and one Code
section, a successful `split_large_functions` either returns the module
unchanged or adds the same number `d ≥ 2` of functions (mod `2^32`) to the
Function-section and Code-section leading counts — the pass preserves the
difference of the counts rather than making them equal.  When
`find_large_functions` actually selects a function (and the code count is
a single LEB byte, which the position-1 body walk of
`find_large_functions` silently assumes), the unchanged case is impossible
and the function count strictly grows whenever it does not wrap. -/
theorem split_pass_count_lockstep
    (pre mid post : List Section) (fsec csec : Section) (ver : Nat)
    (M M' : WasmModule)
    (hM : M = ⟨ver, pre ++ fsec :: (mid ++ csec :: post)⟩)
    (hf : fsec.section_type = SectionType.function)
    (hc : csec.section_type = SectionType.code)
    (hpre : NotFC pre) (hmid : NotFC mid) (hpost : NotFC post)
    (hsucc : split_large_functions M = some M') :
    (M' = M ∨
      ∃ d, 2 ≤ d ∧
        function_section_count M' = (function_section_count M + d) % 4294967296 ∧
        count_funcs M' = (count_funcs M + d) % 4294967296) ∧
    (find_large_functions M (get_exported_functions M) ≠ some [] →
      csec.data.getD 0 0 < 128 →
      ∃ d, 2 ≤ d ∧
        function_section_count M' = (function_section_count M + d) % 4294967296 ∧
        count_funcs M' = (count_funcs M + d) % 4294967296 ∧
        (count_funcs M + d < 4294967296 → count_funcs M < count_funcs M')) := by
  subst hM
  simp only [split_large_functions] at hsucc
  cases hfl : find_large_functions ⟨ver, pre ++ fsec :: (mid ++ csec :: post)⟩
      (get_exported_functions ⟨ver, pre ++ fsec :: (mid ++ csec :: post)⟩) with
  | none =>
    rw [hfl] at hsucc
    exact Option.noConfusion hsucc
  | some large =>
    simp only [hfl] at hsucc
    by_cases hL : large = []
    · subst hL
      rw [if_pos rfl] at hsucc
      refine ⟨Or.inl (Option.some.inj hsucc).symm, ?_⟩
      intro hne _
      exact absurd rfl hne
    · rw [if_neg hL] at hsucc
      refine ⟨passFold_counts pre mid post ver hpre hmid hpost large fsec csec
        _ _ rfl hf hc hsucc, ?_⟩
      intro _ hbyte
      obtain ⟨idx1, rest, rfl⟩ := List.exists_cons_of_ne_nil hL
      simp only [passFoldF] at hsucc
      cases hsf : split_function ⟨ver, pre ++ fsec :: (mid ++ csec :: post)⟩ idx1 with
      | none =>
        rw [hsf] at hsucc
        exact Option.noConfusion hsucc
      | some M1 =>
        rw [hsf] at hsucc
        have hscan : largeScanF csec.data
            (bodiesLoopF csec.data.length csec.data 1) 0
            (get_exported_functions ⟨ver, pre ++ fsec :: (mid ++ csec :: post)⟩) =
            some (idx1 :: rest) := by
          have hthis := hfl
          simp only [find_large_functions,
            find?_shape_code pre mid post fsec csec hf hc hpre hmid] at hthis
          exact hthis
        obtain ⟨j, p, s, hjent, hidval, hbig, hps, hpts⟩ :=
          largeScanF_mem csec.data _ 0 _ _ hscan idx1 (by simp)
        have hswap : j = idx1 := by omega
        rw [hswap] at hjent
        have hne0 : csec.data ≠ [] := by
          intro hcon
          rw [hcon] at hjent
          simp [bodiesLoopF] at hjent
        obtain ⟨fsec', csec', d1, hM1, hf', hc', hd1, hfsc1, hcf1⟩ :=
          split_function_growth pre mid post fsec csec ver idx1 _ M1 p s rfl
            hf hc hpre hmid hpost hbyte hne0 hjent hps hpts hsf
        have hrest := passFold_counts pre mid post ver hpre hmid hpost rest
          fsec' csec' M1 M' hM1 hf' hc' hsucc
        cases hrest with
        | inl heq =>
          subst heq
          exact ⟨d1, hd1, hfsc1, hcf1, fun hlt => by
            rw [hcf1, Nat.mod_eq_of_lt hlt]; omega⟩
        | inr hex =>
          obtain ⟨d2, hd2, hfsc2, hcf2⟩ := hex
          refine ⟨d1 + d2, by omega, ?_, ?_, ?_⟩
          · rw [hfsc2, hfsc1, Nat.mod_add_mod, Nat.add_assoc]
          · rw [hcf2, hcf1, Nat.mod_add_mod, Nat.add_assoc]
          · intro hlt
            rw [hcf2, hcf1, Nat.mod_add_mod, Nat.add_assoc,
              Nat.mod_eq_of_lt hlt]
            omega

/-- A module with one declared function whose 111-byte body (`retBody`) is
large and splittable: the pass really splits it. -/
def M1w : WasmModule :=
  ⟨1, [⟨SectionType.function, none, [1, 0]⟩,
       ⟨SectionType.code, none, 1 :: 111 :: retBody⟩]⟩

/-- The module produced by running the splitting pass on `M1w`. -/
def M1res : WasmModule := (split_large_functions M1w).getD M1w

set_option maxRecDepth 1000000 in
/-- C5 witness: on `M1w` the pass succeeds and splits, so both leading
counts grow by the same `d ≥ 2` and the function count strictly
increases. -/
theorem split_pass_count_lockstep_witness :
    ∃ d, 2 ≤ d ∧
      function_section_count M1res =
        (function_section_count M1w + d) % 4294967296 ∧
      count_funcs M1res = (count_funcs M1w + d) % 4294967296 ∧
      (count_funcs M1w + d < 4294967296 →
        count_funcs M1w < count_funcs M1res) :=
  (split_pass_count_lockstep [] [] [] ⟨SectionType.function, none, [1, 0]⟩
      ⟨SectionType.code, none, 1 :: 111 :: retBody⟩ 1 M1w M1res rfl rfl rfl
      (by simp [NotFC]) (by simp [NotFC]) (by simp [NotFC])
      (by decide)).2
    (by decide) (by decide)

theorem fisherStep_length (rng : Nat → Nat) (m : List Nat) (i : Nat) :
    (fisherStep rng m i).length = m.length := by
  simp [fisherStep]

/-- C10 amended.  Every array returned by `generate_obfuscated_opcode_map`
has 256 entries and maps 0xFF to 0xFF, so Exit is always recognizable; the
array need not be a permutation of `0..=255`, since the final forced write
can duplicate 0xFF. -/
theorem opcode_map_exit_fixed (rng : Nat → Nat) :
    (generate_obfuscated_opcode_map rng).length = 256 ∧
    (generate_obfuscated_opcode_map rng).getD 255 0 = 255 := by
  have hlen : ((List.range 255).foldl (fun m k => fisherStep rng m (255 - k))
      (List.range 256)).length = 256 := by
    have : ∀ (ks : List Nat) (m : List Nat),
        (ks.foldl (fun m k => fisherStep rng m (255 - k)) m).length =
          m.length := by
      intro ks
      induction ks with
      | nil => intro m; rfl
      | cons k t ih =>
        intro m
        rw [List.foldl_cons, ih, fisherStep_length]
    rw [this]
    simp
  constructor
  · simp [generate_obfuscated_opcode_map, hlen]
  · simp only [generate_obfuscated_opcode_map, List.getD_eq_getElem?_getD]
    rw [List.getElem?_set_self (by simp [hlen])]
    rfl

end RusWaCipher
